import Mathlib

/-!
Verification of the fact-store core of the rust-callgraphs repository: the
schema-generated `Tables` aggregate (interning tables, relations, counters),
its registration operations, the distributed-merge algorithm emitted by
`database-dsl/src/generator.rs`, the persistence layer of
`database/src/storage.rs`, and the store manager of `manager/src/database.rs`.

The schema-compiler (`generator.rs`) emits one Rust function per schema item;
we embed the *generated* code generically over a schema value, mirroring the
token streams the generator produces item by item.
-/

set_option maxHeartbeats 1600000

namespace RustCallgraphs

/-- First-occurrence index of a value in a list.

Modelled from the spec: the `InterningTable` implementation
(`database/src/data_structures.rs`) is not among the provided sources — only
its callers and the schema compiler are.  Per §4.1 of the spec the table keeps
an internal reverse index from values to keys; because keys are dense and
assigned in first-seen order, the reverse index of a table with insertion-order
`contents` maps a value to the index of its first occurrence. -/
def idxOf? {V : Type} [DecidableEq V] : List V → V → Option Nat
  | [], _ => none
  | x :: xs, v => if x = v then some 0 else (idxOf? xs v).map (· + 1)

/-- Modelled from the spec: insertion-ordered dedup store, dense keys from 0.
The missing `data_structures.rs` is represented by the table's
insertion-ordered contents; key `k` denotes `contents[k]`. -/
structure InterningTable (V : Type) where
  contents : List V
deriving DecidableEq

/-- Modelled from the spec (§4.1): `intern` looks the value up in the reverse
index; if present it returns the existing key, otherwise it assigns the next
dense key (`current_length`), stores the value and returns the new key. -/
def InterningTable.intern {V : Type} [DecidableEq V] (t : InterningTable V) (v : V) :
    Nat × InterningTable V :=
  match idxOf? t.contents v with
  | some k => (k, t)
  | none => (t.contents.length, ⟨t.contents ++ [v]⟩)

/-! ## The generated `Tables` aggregate

`generator.rs` (`src/database-dsl`) emits, for a given schema, the struct
`Tables { relations, counters, interning_tables }` together with registration,
merge and load/save functions, looping over the schema's incremental ids,
interning tables and relations.  We embed that generated code generically over
a schema value.  Identifier newtypes are represented by `Nat`; every other
column value (strings, enums, custom ids, plain Rust values) is an `SV`.
Scalar-valued interning tables (value type not a tuple) hold `SV` values;
tuple-valued interning tables hold `List SV` values. -/

/-- A value as stored in a column or an interning table: a numeric id or an
opaque non-id value (string/enum/custom payload), compared by value equality. -/
inductive SV : Type
  | nat (n : Nat)
  | str (s : String)
deriving DecidableEq

/-- The kind of a relation column, as classified by
`DatabaseSchema::get_type_kind` during `generate_merge_functions`:
`plain` covers `CustomId`, `Enum` and `RustType` (copied unchanged on merge),
`inc k` is the incremental id of kind `k` (shifted on merge), `iScalar j` and
`iTuple j` are keys of the j-th scalar-valued / tuple-valued interning table
(replaced through the remap table built for that table). -/
inductive ColKind : Type
  | plain
  | inc (k : Nat)
  | iScalar (j : Nat)
  | iTuple (j : Nat)
deriving DecidableEq

/-- The static schema the generator loops over: per incremental-id kind the
number of reserved constants; per scalar interning table, whether its value
type is the key of another (earlier) scalar interning table; per tuple
interning table, for each tuple column, the scalar table whose key it is
(`none` = custom id, passed through); per relation, the kinds of its columns. -/
structure Schema : Type where
  incConsts : List Nat
  scalarRefs : List (Option Nat)
  tupleRefs : List (List (Option Nat))
  relCols : List (List ColKind)
deriving DecidableEq

/-- The generated aggregate `Tables { relations, counters, interning_tables }`.
A relation is the insertion-ordered list of its fact tuples (the missing
`Relation` data structure is an append-only `Vec` per the spec §4.2). -/
structure Tables : Type where
  counters : List Nat
  scalars : List (InterningTable SV)
  tuples : List (InterningTable (List SV))
  relations : List (List (List SV))
deriving DecidableEq

/-- Value remapping for one scalar interning-table entry during merge: if the
generator found the table's value type in `interning_remap` (ref to an
already-processed table whose map is available) the value — a key — is sent
through that map (`let new_value = map[&value];`), otherwise it is copied
(`let new_value = value;`). -/
def remapSV (maps : List (List Nat)) (r : Option Nat) (v : SV) : SV :=
  match r with
  | none => v
  | some j =>
    match maps[j]?, v with
    | some m, .nat k => .nat (m.getD k 0)
    | _, _ => v

/-- Re-intern a list of values (in key order, as `other`'s table is consumed by
`into_iter().map(..).collect()`) into a table, returning the evolved table and
the `old_key → new_key` map as a list indexed by old key. -/
def internAll {V : Type} [DecidableEq V] (t : InterningTable V) :
    List V → InterningTable V × List Nat
  | [] => (t, [])
  | v :: vs =>
    ((internAll (t.intern v).2 vs).1, (t.intern v).1 :: (internAll (t.intern v).2 vs).2)

/-- The per-interning-table merge loop: for each table (schema order), remap
`other`'s values through the maps built so far (`acc`), re-intern them into
`self`'s copy, and record the resulting `old_key → new_key` map. -/
def buildMaps {σ V : Type} [DecidableEq V] (f : List (List Nat) → σ → V → V) :
    List σ → List (InterningTable V) → List (InterningTable V) → List (List Nat) →
    List (InterningTable V) × List (List Nat)
  | r :: rs, s :: ss, o :: os, acc =>
    ((internAll s (o.contents.map (f acc r))).1 ::
        (buildMaps f rs ss os (acc ++ [(internAll s (o.contents.map (f acc r))).2])).1,
      (buildMaps f rs ss os (acc ++ [(internAll s (o.contents.map (f acc r))).2])).2)
  | _, ss, _, acc => (ss, acc)

/-- The per-relation merge loop: remap each of `other`'s tuples column-wise by
kind and append it to `self`'s relation (no dedup). -/
def mergeRels (f : ColKind → SV → SV) :
    List (List ColKind) → List (List (List SV)) → List (List (List SV)) →
    List (List (List SV))
  | ck :: cks, s :: ss, o :: os =>
    (s ++ o.map (fun tup => List.zipWith f ck tup)) :: mergeRels f cks ss os
  | _, ss, _ => ss

/-- The final counter advance:
`self.counters.field += other.counters.field - (constant_count as typ);`
for every incremental-id kind. -/
def advCounters : List Nat → List Nat → List Nat → List Nat
  | sc :: scs, oc :: ocs, c :: cs => (sc + (oc - c)) :: advCounters scs ocs cs
  | scs, _, _ => scs

/-- Column remap for relation tuples, matching `generate_merge_functions`:
custom id / enum / plain Rust value → copied; incremental id → shifted by
`self.counters.field - constant_count` unless it is a reserved constant
(`index >= constant_count` guard, emitted only when the kind has constants);
interned id → replaced through the remap table of its interning table.
Non-`nat` payloads in id columns cannot arise in generated code (the columns
are typed); they are returned unchanged. -/
def remapCol (ctrs consts : List Nat) (smaps tmaps : List (List Nat)) :
    ColKind → SV → SV
  | .plain, v => v
  | .inc k, .nat v =>
    let c := consts.getD k 0
    let sh := v + (ctrs.getD k 0 - c)
    .nat (if 0 < c then (if c ≤ v then sh else v) else sh)
  | .inc _, v => v
  | .iScalar j, .nat v => .nat ((smaps.getD j []).getD v 0)
  | .iScalar _, v => v
  | .iTuple j, .nat v => .nat ((tmaps.getD j []).getD v 0)
  | .iTuple _, v => v

/-- Merge step 1: remap the scalar-valued interning tables, in schema order,
building one `old_key → new_key` map per table. -/
def Schema.mergeScalars (S : Schema) (self other : Tables) :
    List (InterningTable SV) × List (List Nat) :=
  buildMaps remapSV S.scalarRefs self.scalars other.scalars []

def Schema.mergeSMaps (S : Schema) (self other : Tables) : List (List Nat) :=
  (S.mergeScalars self other).2

/-- Merge step 2: remap the tuple-valued interning tables; each tuple column is
sent through the scalar-table map built in step 1 (custom-id columns pass
through, per the `is_custom_id` assertion). -/
def Schema.mergeTuples (S : Schema) (self other : Tables) :
    List (InterningTable (List SV)) × List (List Nat) :=
  buildMaps (fun _ rs tup => List.zipWith (remapSV (S.mergeSMaps self other)) rs tup)
    S.tupleRefs self.tuples other.tuples []

def Schema.mergeTMaps (S : Schema) (self other : Tables) : List (List Nat) :=
  (S.mergeTuples self other).2

/-- The column remap used in merge step 3, reading `self`'s counters as they
stand at merge start (the counters are only advanced in step 4). -/
def Schema.mergeRemap (S : Schema) (self other : Tables) : ColKind → SV → SV :=
  remapCol self.counters S.incConsts (S.mergeSMaps self other) (S.mergeTMaps self other)

/-- `Tables::merge(other)` as emitted by `generate_merge_functions`: scalar
interning tables, then tuple interning tables, then relations, then counters. -/
def Schema.merge (S : Schema) (self other : Tables) : Tables :=
  { counters := advCounters self.counters other.counters S.incConsts
    scalars := (S.mergeScalars self other).1
    tuples := (S.mergeTuples self other).1
    relations := mergeRels (S.mergeRemap self other) S.relCols self.relations other.relations }

/-! ## Overflow semantics of id generation and shifting -/

/-- `shift` as emitted by `generate_id_decl` for a numeric id type backed by a
`w`-bit unsigned integer: `Self(self.0.checked_add(offset).expect("Overflow!"))`.
`none` models the fatal `expect` panic — the overflowing sum is never
produced. -/
def shiftChecked (w v off : Nat) : Option Nat :=
  if v + off < 2 ^ w then some (v + off) else none

/-- `get_fresh_<kind>` as emitted by `generate_counters`:
`let value = self.field.into(); self.field += 1; value`.  The `+=` is an
*unchecked* add: when the build profile disables overflow checks (the default
for release builds) it compiles to a wrapping add modulo `2 ^ w` and signals
nothing.  Returns (issued id, new counter value). -/
def getFreshWrap (w c : Nat) : Nat × Nat := (c, (c + 1) % 2 ^ w)

/-- The same counter increment compiled with overflow checks enabled (debug
profile): the add panics on overflow (`none`). -/
def getFreshChecked (w c : Nat) : Option (Nat × Nat) :=
  if c + 1 < 2 ^ w then some (c, c + 1) else none

/-! ## Generated relation-registration operations

`generate_relation_registration` emits, per relation, a function that walks
the parameter list in order: an `auto` parameter (an incremental id) is
fetched from `self.counters.get_fresh_<kind>()` and returned to the caller; a
non-`auto` parameter is routed through the interning path found by
`generate_interning_type`, a chain of `self.interning_tables.<t>.intern(..)`
calls through scalar-valued tables (tuple-valued tables are skipped by that
search, so a parameter that is a tuple-table key is passed through, i.e. has
the empty chain); finally exactly one tuple is appended to the relation. -/

/-- How the generator treats one relation parameter: `auto k` = autogenerated
incremental id of kind `k`; `chain js` = the parameter is interned through the
scalar tables `js` in order (innermost value first; `chain []` is a parameter
passed through unchanged). -/
inductive ParamSpec : Type
  | auto (k : Nat)
  | chain (js : List Nat)
deriving DecidableEq

/-- Run an interning chain: `let x1 = tables.t0.intern(arg); let x2 =
tables.t1.intern(x1); ...`, returning the final value and the evolved scalar
tables. -/
def chainIntern : List (InterningTable SV) → List Nat → SV → SV × List (InterningTable SV)
  | tabs, [], v => (v, tabs)
  | tabs, j :: js, v =>
    chainIntern (tabs.set j ((tabs.getD j ⟨[]⟩).intern v).2) js
      (.nat ((tabs.getD j ⟨[]⟩).intern v).1)

/-- Denotation of an interned key: follow the tables backwards (outermost table
first), looking each key up, to recover the original value. -/
def chainResolve (tabs : List (InterningTable SV)) : List Nat → SV → SV
  | [], w => w
  | j :: js, w =>
    match w with
    | .nat k => chainResolve tabs js ((tabs.getD j ⟨[]⟩).contents.getD k (.nat 0))
    | w => chainResolve tabs js w

/-- `t2` extends `t1` pointwise: every table keeps its existing entries (keys
and values) and at most gains new ones at the end. -/
def TabsExtend (t1 t2 : List (InterningTable SV)) : Prop :=
  ∀ i, ∃ tail, (t2.getD i ⟨[]⟩).contents = (t1.getD i ⟨[]⟩).contents ++ tail

/-- Number of `auto` parameters of kind `k` in a parameter list. -/
def countAuto : List ParamSpec → Nat → Nat
  | [], _ => 0
  | .auto k2 :: specs, k => (if k2 = k then 1 else 0) + countAuto specs k
  | .chain _ :: specs, k => countAuto specs k

/-- The columns at `auto` positions of a registration tuple (the values the
generated operation returns to the caller). -/
def autoCols : List ParamSpec → List SV → List SV
  | .auto _ :: specs, c :: cols => c :: autoCols specs cols
  | .chain _ :: specs, _ :: cols => autoCols specs cols
  | _, _ => []

/-- Index into the caller-supplied arguments of the parameter at position `i`
(`auto` parameters are not supplied by the caller). -/
def chainArgIdx : List ParamSpec → Nat → Nat
  | _, 0 => 0
  | [], _ + 1 => 0
  | .auto _ :: specs, i + 1 => chainArgIdx specs i
  | .chain _ :: specs, i + 1 => chainArgIdx specs i + 1

/-- State accumulated while the generated registration body runs: the tuple
columns in parameter order, the `auto` outputs, the counters and the scalar
interning tables. -/
structure RegState : Type where
  cols : List SV
  autos : List SV
  ctrs : List Nat
  tabs : List (InterningTable SV)
deriving DecidableEq

/-- The statement sequence of a generated registration function: one `let` per
parameter, in order. -/
def processParams : List ParamSpec → List SV → List Nat → List (InterningTable SV) → RegState
  | [], _, ctrs, tabs => ⟨[], [], ctrs, tabs⟩
  | .auto k :: specs, args, ctrs, tabs =>
    ⟨.nat (ctrs.getD k 0) ::
        (processParams specs args (ctrs.set k (ctrs.getD k 0 + 1)) tabs).cols,
      .nat (ctrs.getD k 0) ::
        (processParams specs args (ctrs.set k (ctrs.getD k 0 + 1)) tabs).autos,
      (processParams specs args (ctrs.set k (ctrs.getD k 0 + 1)) tabs).ctrs,
      (processParams specs args (ctrs.set k (ctrs.getD k 0 + 1)) tabs).tabs⟩
  | .chain js :: specs, args, ctrs, tabs =>
    ⟨(chainIntern tabs js (args.headD (.nat 0))).1 ::
        (processParams specs args.tail ctrs (chainIntern tabs js (args.headD (.nat 0))).2).cols,
      (processParams specs args.tail ctrs (chainIntern tabs js (args.headD (.nat 0))).2).autos,
      (processParams specs args.tail ctrs (chainIntern tabs js (args.headD (.nat 0))).2).ctrs,
      (processParams specs args.tail ctrs (chainIntern tabs js (args.headD (.nat 0))).2).tabs⟩

def Tables.registerRun (T : Tables) (specs : List ParamSpec) (args : List SV) : RegState :=
  processParams specs args T.counters T.scalars

/-- The generated relation-registration operation for relation `r`: process
the parameters, append exactly one tuple to the relation, return the `auto`
outputs. -/
def Tables.register (T : Tables) (specs : List ParamSpec) (r : Nat) (args : List SV) :
    List SV × Tables :=
  ((T.registerRun specs args).autos,
    { T with
      counters := (T.registerRun specs args).ctrs
      scalars := (T.registerRun specs args).tabs
      relations := T.relations.set r
        (T.relations.getD r [] ++ [(T.registerRun specs args).cols]) })

/-! ## Persistence (`database/src/storage.rs` and the generated
`load_multifile` / `store_multifile` / `load_single_file`)

The filesystem is an association list from file keys to (encoding, payload).
A file key carries the directory shape of the generated layout —
`<root>/relations/<name>.<ext>`, `<root>/interning/<name>.<ext>`,
`<root>/counters.<ext>`, or a caller-chosen single-file path — and its
extension string, which is what `storage::load`/`save` dispatch on.

Modelled from the spec: the `bincode` and `serde_json` serializers themselves
are external crates; per the spec (§6) both encodings round-trip serde values
losslessly, so a stored file is modelled as its typed payload tagged with the
encoding that produced it. -/

inductive Enc : Type
  | bincode
  | json
deriving DecidableEq

/-- A serde value as persisted by this program: a whole `Tables`, a single
relation, the counters, or a single interning table. -/
inductive Payload : Type
  | tab (t : Tables)
  | rel (r : List (List SV))
  | ctr (c : List Nat)
  | itabS (t : InterningTable SV)
  | itabT (t : InterningTable (List SV))
deriving DecidableEq

inductive FsKey : Type
  | rel (root : String) (i : Nat) (ext : String)
  | itabS (root : String) (i : Nat) (ext : String)
  | itabT (root : String) (i : Nat) (ext : String)
  | ctrs (root : String) (ext : String)
  | single (path : String) (ext : String)
deriving DecidableEq

/-- `path.extension()`. -/
def FsKey.extOf : FsKey → String
  | .rel _ _ e => e
  | .itabS _ _ e => e
  | .itabT _ _ e => e
  | .ctrs _ e => e
  | .single _ e => e

abbrev FS : Type := List (FsKey × Enc × Payload)

/-- `File::create` + write: overwrites any earlier file at the same path. -/
def fsWrite (fs : FS) (k : FsKey) (e : Enc) (p : Payload) : FS := (k, e, p) :: fs

def fsRead : FS → FsKey → Option (Enc × Payload)
  | [], _ => none
  | (k2, v) :: fs, k => if k2 = k then some v else fsRead fs k

/-- The `LoadError` variants of `storage.rs`, plus the `unreachable!` on an
unknown extension. -/
inductive LoadErr : Type
  | openErr (k : FsKey)
  | badBincode (k : FsKey)
  | badJson (k : FsKey)
  | badExt (k : FsKey)
deriving DecidableEq

/-- `storage::load`: open the file (missing file → `OpenFileError`), then
decode according to the path extension; a file whose stored encoding does not
match the extension fails to deserialize; an unknown extension is
`unreachable!`. -/
def storageLoad (fs : FS) (k : FsKey) : Except LoadErr Payload :=
  match fsRead fs k with
  | none => .error (.openErr k)
  | some (e, p) =>
    if k.extOf = "bincode" then
      if e = .bincode then .ok p else .error (.badBincode k)
    else if k.extOf = "json" then
      if e = .json then .ok p else .error (.badJson k)
    else .error (.badExt k)

/-- `storage::save`: encode according to the path extension and write the
file; an unknown extension is `unreachable!` (`none`). -/
def storageSave (fs : FS) (k : FsKey) (p : Payload) : Option FS :=
  if k.extOf = "bincode" then some (fsWrite fs k .bincode p)
  else if k.extOf = "json" then some (fsWrite fs k .json p)
  else none

/-- `Tables::default()` under schema `S`: every counter seeded at its kind's
`num_constants` (`generate_counters` emits `field: constants.len()` in
`Default`), every interning table and every relation empty. -/
def Schema.defaultTables (S : Schema) : Tables :=
  { counters := S.incConsts
    scalars := S.scalarRefs.map (fun _ => ⟨[]⟩)
    tuples := S.tupleRefs.map (fun _ => ⟨[]⟩)
    relations := S.relCols.map (fun _ => []) }

/-- `storage::load_or_default::<Tables>`: if the path exists, load it;
otherwise return `Tables::default()`. -/
def storageLoadOrDefaultTables (S : Schema) (fs : FS) (k : FsKey) :
    Except LoadErr Tables :=
  if (fsRead fs k).isSome then
    match storageLoad fs k with
    | .ok (.tab t) => .ok t
    | .ok _ => .error (.badBincode k)
    | .error e => .error e
  else .ok S.defaultTables

/-- `Tables::load` (`storage.rs`) = the generated `Tables::load_single_file`:
plain `crate::storage::load(path)` deserialized at type `Tables` (a payload of
any other type fails to deserialize; the error constructor chosen here is
immaterial to the claims). -/
def Tables.loadSingle (fs : FS) (k : FsKey) : Except LoadErr Tables :=
  match storageLoad fs k with
  | .ok (.tab t) => .ok t
  | .ok _ => .error (.badBincode k)
  | .error e => .error e

/-- `Tables::save_json`: set the extension to `json`, then `storage::save`. -/
def Tables.saveJson (t : Tables) (path : String) (fs : FS) : FS :=
  (storageSave fs (.single path "json") (.tab t)).getD fs

/-- `Tables::save_bincode`: set the extension to `bincode`, then save. -/
def Tables.saveBincode (t : Tables) (path : String) (fs : FS) : FS :=
  (storageSave fs (.single path "bincode") (.tab t)).getD fs

def relKey (root : String) (i : Nat) : FsKey := .rel root i "bincode"

def itabSKey (root : String) (i : Nat) : FsKey := .itabS root i "bincode"

def itabTKey (root : String) (i : Nat) : FsKey := .itabT root i "bincode"

def ctrKey (root : String) : FsKey := .ctrs root "bincode"

/-- The generated `store_multifile_*` loops: one `storage::save` per item, to
`<name>.bincode` paths (the extension is hard-coded by the generator; with a
`"bincode"` extension `storage::save` writes the binary encoding, as proven
for `storageSave`). -/
def writeSeq {α : Type} (mk : Nat → FsKey) (wrap : α → Payload) :
    Nat → List α → FS → FS
  | _, [], fs => fs
  | i, x :: xs, fs => writeSeq mk wrap (i + 1) xs (fsWrite fs (mk i) .bincode (wrap x))

/-- The generated `load_multifile_*` loops: one `storage::load` per schema
item, from the same `<name>.bincode` paths, failing on the first error. -/
def readSeq {α : Type} (mk : Nat → FsKey) (unwrap : Payload → Option α) (fs : FS) :
    Nat → Nat → Except LoadErr (List α)
  | _, 0 => .ok []
  | i, n + 1 =>
    match storageLoad fs (mk i) with
    | .error e => .error e
    | .ok p =>
      match unwrap p with
      | none => .error (.badBincode (mk i))
      | some a =>
        match readSeq mk unwrap fs (i + 1) n with
        | .error e => .error e
        | .ok rest => .ok (a :: rest)

def unwrapRel : Payload → Option (List (List SV))
  | .rel r => some r
  | _ => none

def unwrapItabS : Payload → Option (InterningTable SV)
  | .itabS t => some t
  | _ => none

def unwrapItabT : Payload → Option (InterningTable (List SV))
  | .itabT t => some t
  | _ => none

/-- The generated `Tables::store_multifile`: relations (one file each under
`relations/`), then `counters.bincode`, then the interning tables (one file
each under `interning/`). -/
def Tables.storeMultifile (t : Tables) (root : String) (fs : FS) : FS :=
  writeSeq (itabTKey root) Payload.itabT 0 t.tuples
    (writeSeq (itabSKey root) Payload.itabS 0 t.scalars
      (fsWrite (writeSeq (relKey root) Payload.rel 0 t.relations fs)
        (ctrKey root) .bincode (.ctr t.counters)))

/-- The generated `Tables::load_multifile`: read every relation, the counters
and every interning table from their `<name>.bincode` files and reassemble the
aggregate; any missing or undecodable file is an error. -/
def Schema.loadMultifile (S : Schema) (fs : FS) (root : String) :
    Except LoadErr Tables :=
  match readSeq (relKey root) unwrapRel fs 0 S.relCols.length with
  | .error e => .error e
  | .ok rels =>
    match storageLoad fs (ctrKey root) with
    | .error e => .error e
    | .ok (.ctr cs) =>
      match readSeq (itabSKey root) unwrapItabS fs 0 S.scalarRefs.length,
          readSeq (itabTKey root) unwrapItabT fs 0 S.tupleRefs.length with
      | .ok sc, .ok tp => .ok ⟨cs, sc, tp, rels⟩
      | .error e, _ => .error e
      | .ok _, .error e => .error e
    | .ok _ => .error (.badBincode (ctrKey root))

/-! ## The store manager (`new/manager/src/database.rs`) -/

/-- The observable steps of `DatabaseManager::update_database`, in program
order: one merge per newly discovered per-unit store (already-merged ones are
skipped; a failing load is logged and skipped without aborting the pass), then
the deletion of `loaded_crates.json`, then `store_multifile` of the corpus,
then the rewrite of `loaded_crates.json`. -/
inductive MgrEv : Type
  | mergeCrate (c : Nat)
  | deleteManifest
  | storeCorpus
  | writeManifest
deriving DecidableEq

/-- The event trace of `DatabaseManager::update_database` over the discovered
crate paths (`crates`) given the already-loaded set (`loaded`). -/
def updateDatabaseTrace (loaded crates : List Nat) : List MgrEv :=
  (crates.filter (fun c => !(loaded.contains c))).map MgrEv.mergeCrate ++
    [.deleteManifest, .storeCorpus, .writeManifest]

/-- Outcome of `DatabaseManager::new`. -/
inductive MgrInit : Type
  | ok (loaded : List Nat)
  | panic
deriving DecidableEq

/-- `DatabaseManager::new(database_root)`: if the database directory exists,
the manifest `loaded_crates.json` is opened and parsed — a missing or
unparsable manifest is a panic ("The database state is corrupted ...");
if the directory does not exist it is created and the loaded set starts
empty.  `manifest = none` models an absent (or unreadable) manifest file. -/
def databaseManagerNew (rootExists : Bool) (manifest : Option (List Nat)) : MgrInit :=
  if rootExists then
    match manifest with
    | some l => .ok l
    | none => .panic
  else .ok []

theorem idxOf?_get? {V : Type} [DecidableEq V] :
    ∀ (l : List V) (v : V) (k : Nat), idxOf? l v = some k → l[k]? = some v := by
  intro l
  induction l with
  | nil => intro v k h; simp [idxOf?] at h
  | cons x xs ih =>
    intro v k h
    simp only [idxOf?] at h
    by_cases hx : x = v
    · simp [hx] at h
      have hk : k = 0 := by omega
      subst hk
      simp [hx]
    · simp [hx] at h
      obtain ⟨k0, hk0, hk⟩ := h
      subst hk
      simpa using ih v k0 hk0

theorem idxOf?_isSome_of_mem {V : Type} [DecidableEq V] :
    ∀ (l : List V) (v : V), v ∈ l → (idxOf? l v).isSome := by
  intro l
  induction l with
  | nil => intro v h; simp at h
  | cons x xs ih =>
    intro v h
    simp only [idxOf?]
    by_cases hx : x = v
    · simp [hx]
    · have hv : v ∈ xs := by
        rcases List.mem_cons.mp h with h1 | h1
        · exact absurd h1.symm hx
        · exact h1
      have hh := ih v hv
      simp only [hx, if_false]
      cases hio : idxOf? xs v with
      | none => rw [hio] at hh; simp at hh
      | some k => simp

theorem idxOf?_none_of_not_mem {V : Type} [DecidableEq V] :
    ∀ (l : List V) (v : V), v ∉ l → idxOf? l v = none := by
  intro l
  induction l with
  | nil => intro v _; simp [idxOf?]
  | cons x xs ih =>
    intro v h
    have hx : x ≠ v := fun he => h (by simp [he])
    have hv : v ∉ xs := fun hm => h (by simp [hm])
    simp [idxOf?, hx, ih v hv]

theorem idxOf?_append_of_some {V : Type} [DecidableEq V] :
    ∀ (l l2 : List V) (v : V) (k : Nat),
      idxOf? l v = some k → idxOf? (l ++ l2) v = some k := by
  intro l
  induction l with
  | nil => intro l2 v k h; simp [idxOf?] at h
  | cons x xs ih =>
    intro l2 v k h
    simp only [idxOf?] at h ⊢
    by_cases hx : x = v
    · simp [hx] at h ⊢; omega
    · simp [hx] at h ⊢
      obtain ⟨k0, hk0, hk⟩ := h
      exact ⟨k0, ih l2 v k0 hk0, hk⟩

theorem idxOf?_append_of_none {V : Type} [DecidableEq V] :
    ∀ (l l2 : List V) (v : V),
      idxOf? l v = none →
      idxOf? (l ++ l2) v = (idxOf? l2 v).map (· + l.length) := by
  intro l
  induction l with
  | nil => intro l2 v _; simp
  | cons x xs ih =>
    intro l2 v h
    have hx : x ≠ v := by
      intro he
      simp [idxOf?, he] at h
    have h0 : idxOf? xs v = none := by
      simp only [idxOf?, hx, if_false] at h
      cases hxs : idxOf? xs v with
      | none => rfl
      | some k => rw [hxs] at h; simp at h
    simp only [List.cons_append, idxOf?, hx, if_false]
    rw [show idxOf? (xs.append l2) v = idxOf? (xs ++ l2) v from rfl, ih l2 v h0]
    cases idxOf? l2 v with
    | none => simp
    | some k => simp [List.length_cons]; omega

/-- After interning `v`, the reverse index finds `v` exactly at the returned key. -/
theorem intern_idxOf {V : Type} [DecidableEq V] (t : InterningTable V) (v : V) :
    idxOf? (t.intern v).2.contents v = some (t.intern v).1 := by
  unfold InterningTable.intern
  cases h : idxOf? t.contents v with
  | some k => simp [h]
  | none =>
    simp only [h]
    have := idxOf?_append_of_none t.contents [v] v h
    simp [idxOf?] at this
    simp [this]

/-- Interning extends the contents by at most a one-element suffix. -/
theorem intern_extend {V : Type} [DecidableEq V] (t : InterningTable V) (v : V) :
    ∃ tail, (t.intern v).2.contents = t.contents ++ tail ∧ tail.length ≤ 1 := by
  unfold InterningTable.intern
  cases h : idxOf? t.contents v with
  | some k => exact ⟨[], by simp, by simp⟩
  | none => exact ⟨[v], by simp, by simp⟩

/-- The returned key indexes the interned value in the resulting table. -/
theorem intern_get {V : Type} [DecidableEq V] (t : InterningTable V) (v : V) :
    (t.intern v).2.contents[(t.intern v).1]? = some v :=
  idxOf?_get? _ _ _ (intern_idxOf t v)

theorem intern_of_mem {V : Type} [DecidableEq V] (t : InterningTable V) (v : V)
    (h : v ∈ t.contents) :
    (t.intern v).2 = t ∧ idxOf? t.contents v = some (t.intern v).1 := by
  have hs := idxOf?_isSome_of_mem t.contents v h
  unfold InterningTable.intern
  cases hx : idxOf? t.contents v with
  | some k => simp [hx]
  | none => simp [hx] at hs

theorem intern_of_not_mem {V : Type} [DecidableEq V] (t : InterningTable V) (v : V)
    (h : v ∉ t.contents) :
    (t.intern v).1 = t.contents.length ∧ (t.intern v).2.contents = t.contents ++ [v] := by
  have hn := idxOf?_none_of_not_mem t.contents v h
  unfold InterningTable.intern
  simp [hn]

/-- Re-interning a value the table already assigned a key leaves everything fixed. -/
theorem intern_intern {V : Type} [DecidableEq V] (t : InterningTable V) (v : V) :
    ((t.intern v).2).intern v = t.intern v := by
  have h := intern_idxOf t v
  have hdef : InterningTable.intern (t.intern v).2 v =
      match idxOf? (t.intern v).2.contents v with
      | some k => (k, (t.intern v).2)
      | none => ((t.intern v).2.contents.length, ⟨(t.intern v).2.contents ++ [v]⟩) := rfl
  rw [hdef, h]

/-- C3: for every interning table, `intern(v1) == intern(v2)` iff `v1 == v2`
(stated over successive calls, matching the table's single-threaded use);
intern is deterministic (it is a function of the table state and the value) and
idempotent: interning an already-present value returns its existing key and
leaves the table unchanged, a new value gets the next dense key
`current_length`; the key returned is a dense index holding the interned
value, and each call grows the table by at most one entry. -/
theorem c3_intern_content_addressing {V : Type} [DecidableEq V]
    (t : InterningTable V) (v v1 v2 : V) :
    (v ∈ t.contents → (t.intern v).2 = t) ∧
    (v ∉ t.contents →
      (t.intern v).1 = t.contents.length ∧
      (t.intern v).2.contents = t.contents ++ [v]) ∧
    (t.intern v).2.contents.length ≤ t.contents.length + 1 ∧
    (t.intern v).2.contents[(t.intern v).1]? = some v ∧
    ((((t.intern v1).2).intern v2).1 = (t.intern v1).1 ↔ v1 = v2) := by
  refine ⟨fun h => (intern_of_mem t v h).1, intern_of_not_mem t v, ?_, intern_get t v, ?_⟩
  · obtain ⟨tail, htail, hlen⟩ := intern_extend t v
    rw [htail]
    simp
    omega
  · constructor
    · intro heq
      have h1 : (t.intern v1).2.contents[(t.intern v1).1]? = some v1 := intern_get t v1
      set t1 := (t.intern v1).2 with ht1
      set k1 := (t.intern v1).1 with hk1
      have hk1lt : k1 < t1.contents.length := by
        by_contra hge
        rw [List.getElem?_eq_none (Nat.le_of_not_lt hge)] at h1
        exact Option.noConfusion h1
      have hdef : t1.intern v2 =
          match idxOf? t1.contents v2 with
          | some k => (k, t1)
          | none => (t1.contents.length, ⟨t1.contents ++ [v2]⟩) := rfl
      cases hx : idxOf? t1.contents v2 with
      | some k =>
        have hkey : (t1.intern v2).1 = k := by rw [hdef, hx]
        have hget : t1.contents[k]? = some v2 := idxOf?_get? _ _ _ hx
        rw [hkey] at heq
        rw [heq] at hget
        exact Option.some.inj (h1.symm.trans hget)
      | none =>
        have hkey : (t1.intern v2).1 = t1.contents.length := by rw [hdef, hx]
        rw [hkey] at heq
        omega
    · intro heq
      subst heq
      have h := intern_idxOf t v1
      have hdef : InterningTable.intern (t.intern v1).2 v1 =
          match idxOf? (t.intern v1).2.contents v1 with
          | some k => (k, (t.intern v1).2)
          | none => ((t.intern v1).2.contents.length,
              ⟨(t.intern v1).2.contents ++ [v1]⟩) := rfl
      rw [hdef, h]

theorem c3_intern_content_addressing_witness :
    ((⟨["a"]⟩ : InterningTable String).intern "a").2 = ⟨["a"]⟩ ∧
    ((((⟨["a"]⟩ : InterningTable String).intern "b").2.intern "a").1 =
        ((⟨["a"]⟩ : InterningTable String).intern "b").1 ↔ ("b" : String) = "a") :=
  ⟨(c3_intern_content_addressing ⟨["a"]⟩ "a" "b" "a").1 (by simp),
   (c3_intern_content_addressing ⟨["a"]⟩ "a" "b" "a").2.2.2.2⟩



theorem getElem?_some_lt {V : Type} {l : List V} {n : Nat} {x : V}
    (h : l[n]? = some x) : n < l.length := by
  by_contra hge
  rw [List.getElem?_eq_none (Nat.le_of_not_lt hge)] at h
  exact Option.noConfusion h

theorem getElem?_append_some {V : Type} (l tail : List V) (n : Nat) (x : V)
    (h : l[n]? = some x) : (l ++ tail)[n]? = some x := by
  rw [List.getElem?_append_left (getElem?_some_lt h)]
  exact h

theorem internAll_len {V : Type} [DecidableEq V] :
    ∀ (vs : List V) (t : InterningTable V), (internAll t vs).2.length = vs.length := by
  intro vs
  induction vs with
  | nil => intro t; simp [internAll]
  | cons v vs ih => intro t; simp [internAll, ih]

theorem internAll_extend {V : Type} [DecidableEq V] :
    ∀ (vs : List V) (t : InterningTable V),
      ∃ tail, (internAll t vs).1.contents = t.contents ++ tail := by
  intro vs
  induction vs with
  | nil => intro t; exact ⟨[], by simp [internAll]⟩
  | cons v vs ih =>
    intro t
    obtain ⟨e1, he1, _⟩ := intern_extend t v
    obtain ⟨e2, he2⟩ := ih (t.intern v).2
    refine ⟨e1 ++ e2, ?_⟩
    simp only [internAll]
    rw [he2, he1, List.append_assoc]

/-- Every old key's new key points, in the final table, at the (remapped) value
that was re-interned for it. -/
theorem internAll_get {V : Type} [DecidableEq V] :
    ∀ (vs : List V) (t : InterningTable V) (k : Nat) (w : V),
      vs[k]? = some w →
      (internAll t vs).1.contents[(internAll t vs).2.getD k 0]? = some w := by
  intro vs
  induction vs with
  | nil => intro t k w h; simp at h
  | cons v vs ih =>
    intro t k w h
    cases k with
    | zero =>
      rw [List.getElem?_cons_zero] at h
      rcases Option.some.inj h with rfl
      simp only [internAll, List.getD_cons_zero]
      obtain ⟨e2, he2⟩ := internAll_extend vs (t.intern v).2
      rw [he2]
      exact getElem?_append_some _ _ _ _ (intern_get t v)
    | succ k =>
      rw [List.getElem?_cons_succ] at h
      simp only [internAll, List.getD_cons_succ]
      exact ih (t.intern v).2 k w h

/-- A value already present in the starting table (before any of the appended
entries) collapses onto its existing key, whatever has been appended since. -/
theorem intern_step_table {V : Type} [DecidableEq V] (base e : List V) (v : V) :
    ∃ e2, (InterningTable.intern ⟨base ++ e⟩ v).2 = (⟨base ++ e2⟩ : InterningTable V) := by
  obtain ⟨e1, he1, _⟩ := intern_extend (⟨base ++ e⟩ : InterningTable V) v
  refine ⟨e ++ e1, ?_⟩
  have heta : (InterningTable.intern ⟨base ++ e⟩ v).2 =
      ⟨(InterningTable.intern ⟨base ++ e⟩ v).2.contents⟩ := rfl
  rw [heta, he1]
  rw [show (⟨base ++ e⟩ : InterningTable V).contents = base ++ e from rfl,
    List.append_assoc]

theorem internAll_collapse {V : Type} [DecidableEq V] :
    ∀ (vs : List V) (base e : List V) (k : Nat) (w : V) (k0 : Nat),
      vs[k]? = some w →
      idxOf? base w = some k0 →
      (internAll ⟨base ++ e⟩ vs).2.getD k 0 = k0 := by
  intro vs
  induction vs with
  | nil => intro base e k w k0 h _; simp at h
  | cons v vs ih =>
    intro base e k w k0 h hbase
    cases k with
    | zero =>
      rw [List.getElem?_cons_zero] at h
      rcases Option.some.inj h with rfl
      simp only [internAll, List.getD_cons_zero]
      have hfull : idxOf? (base ++ e) v = some k0 := idxOf?_append_of_some _ _ _ _ hbase
      unfold InterningTable.intern
      rw [show idxOf? (InterningTable.contents ⟨base ++ e⟩) v = idxOf? (base ++ e) v
        from rfl, hfull]
    | succ k =>
      rw [List.getElem?_cons_succ] at h
      simp only [internAll, List.getD_cons_succ]
      obtain ⟨e2, he2⟩ := intern_step_table base e v
      rw [he2]
      exact ih base e2 k w k0 h hbase

/-- A value not present in the starting table gets a key beyond every key the
starting table had already issued. -/
theorem internAll_fresh {V : Type} [DecidableEq V] :
    ∀ (vs : List V) (base e : List V) (k : Nat) (w : V),
      vs[k]? = some w →
      w ∉ base →
      base.length ≤ (internAll ⟨base ++ e⟩ vs).2.getD k 0 := by
  intro vs
  induction vs with
  | nil => intro base e k w h _; simp at h
  | cons v vs ih =>
    intro base e k w h hnm
    cases k with
    | zero =>
      rw [List.getElem?_cons_zero] at h
      rcases Option.some.inj h with rfl
      simp only [internAll, List.getD_cons_zero]
      have hb : idxOf? base v = none := idxOf?_none_of_not_mem base v hnm
      have hfull := idxOf?_append_of_none base e v hb
      unfold InterningTable.intern
      rw [show idxOf? (InterningTable.contents ⟨base ++ e⟩) v = idxOf? (base ++ e) v
        from rfl, hfull]
      cases idxOf? e v with
      | none => simp
      | some j => simp
    | succ k =>
      rw [List.getElem?_cons_succ] at h
      simp only [internAll, List.getD_cons_succ]
      obtain ⟨e2, he2⟩ := intern_step_table base e v
      rw [he2]
      exact ih base e2 k w h hnm

theorem internAll_collapse0 {V : Type} [DecidableEq V] (vs : List V)
    (t : InterningTable V) (k : Nat) (w : V) (k0 : Nat)
    (h : vs[k]? = some w) (h0 : idxOf? t.contents w = some k0) :
    (internAll t vs).2.getD k 0 = k0 := by
  have hh := internAll_collapse vs t.contents [] k w k0 h h0
  rw [show (⟨t.contents ++ []⟩ : InterningTable V) = t from by rw [List.append_nil]] at hh
  exact hh

theorem internAll_fresh0 {V : Type} [DecidableEq V] (vs : List V)
    (t : InterningTable V) (k : Nat) (w : V)
    (h : vs[k]? = some w) (hnm : w ∉ t.contents) :
    t.contents.length ≤ (internAll t vs).2.getD k 0 := by
  have hh := internAll_fresh vs t.contents [] k w h hnm
  rw [show (⟨t.contents ++ []⟩ : InterningTable V) = t from by rw [List.append_nil]] at hh
  exact hh

theorem buildMaps_acc {σ V : Type} [DecidableEq V] (f : List (List Nat) → σ → V → V) :
    ∀ (rs : List σ) (ss os : List (InterningTable V)) (acc : List (List Nat)),
      ∃ delta, (buildMaps f rs ss os acc).2 = acc ++ delta := by
  intro rs
  induction rs with
  | nil => intro ss os acc; exact ⟨[], by simp [buildMaps]⟩
  | cons r rs ih =>
    intro ss os acc
    cases ss with
    | nil => exact ⟨[], by simp [buildMaps]⟩
    | cons s ss =>
      cases os with
      | nil => exact ⟨[], by simp [buildMaps]⟩
      | cons o os =>
        obtain ⟨delta, hd⟩ :=
          ih ss os (acc ++ [(internAll s (o.contents.map (f acc r))).2])
        exact ⟨[(internAll s (o.contents.map (f acc r))).2] ++ delta, by
          simp only [buildMaps]
          rw [hd, List.append_assoc]⟩

/-- The central per-table property of the interning-table merge loop: the map
recorded for the `i`-th table sends each old key to a key of `self`'s evolved
copy holding the corresponding remapped value; a remapped value already present
in `self`'s copy collapses onto its existing key, and a new value gets a key
beyond all keys `self` had already issued for that table. -/
theorem buildMaps_spec {σ V : Type} [DecidableEq V] (f : List (List Nat) → σ → V → V)
    (d : InterningTable V) (dr : σ) :
    ∀ (rs : List σ) (ss os : List (InterningTable V)) (acc : List (List Nat)) (i : Nat),
      i < rs.length → i < ss.length → i < os.length →
      ∃ mi, (buildMaps f rs ss os acc).2[acc.length + i]? = some mi ∧
        mi.length = (os.getD i d).contents.length ∧
        (∀ k w, ((os.getD i d).contents.map
              (f ((buildMaps f rs ss os acc).2.take (acc.length + i)) (rs.getD i dr)))[k]?
            = some w →
          ((buildMaps f rs ss os acc).1.getD i d).contents[mi.getD k 0]? = some w ∧
          (∀ k0, idxOf? (ss.getD i d).contents w = some k0 → mi.getD k 0 = k0) ∧
          (w ∉ (ss.getD i d).contents → (ss.getD i d).contents.length ≤ mi.getD k 0)) := by
  intro rs
  induction rs with
  | nil => intro ss os acc i hi; simp at hi
  | cons r rs ih =>
    intro ss os acc i hi hs ho
    cases ss with
    | nil => simp at hs
    | cons s ss =>
      cases os with
      | nil => simp at ho
      | cons o os =>
        cases i with
        | zero =>
          obtain ⟨delta, hd⟩ :=
            buildMaps_acc f rs ss os (acc ++ [(internAll s (o.contents.map (f acc r))).2])
          refine ⟨(internAll s (o.contents.map (f acc r))).2, ?_, ?_, ?_⟩
          · simp only [buildMaps]
            rw [hd, Nat.add_zero]
            rw [List.getElem?_append_left (by simp)]
            exact List.getElem?_concat_length acc _
          · rw [internAll_len]
            simp
          · intro k w hw
            have htake : (buildMaps f (r :: rs) (s :: ss) (o :: os) acc).2.take
                (acc.length + 0) = acc := by
              simp only [buildMaps]
              rw [hd, List.append_assoc, Nat.add_zero]
              rw [List.take_left' rfl]
            rw [htake] at hw
            simp only [List.getD_cons_zero] at hw
            refine ⟨?_, ?_, ?_⟩
            · simp only [buildMaps, List.getD_cons_zero]
              exact internAll_get _ s k w hw
            · intro k0 hk0
              simp only [List.getD_cons_zero] at hk0
              exact internAll_collapse0 _ s k w k0 hw hk0
            · intro hnm
              simp only [List.getD_cons_zero] at hnm ⊢
              exact internAll_fresh0 _ s k w hw hnm
        | succ i =>
          simp only [List.length_cons, Nat.succ_lt_succ_iff] at hi hs ho
          have hidx : acc.length + (i + 1) =
              (acc ++ [(internAll s (o.contents.map (f acc r))).2]).length + i := by
            simp only [List.length_append, List.length_cons, List.length_nil]
            omega
          have hrec := ih ss os (acc ++ [(internAll s (o.contents.map (f acc r))).2]) i
            hi hs ho
          obtain ⟨mi, h1, h2, h3⟩ := hrec
          refine ⟨mi, ?_, ?_, ?_⟩
          · simp only [buildMaps]
            rw [hidx]
            exact h1
          · simpa using h2
          · intro k w hw
            have hx : ((os.getD i d).contents.map
                (f ((buildMaps f rs ss os
                    (acc ++ [(internAll s (o.contents.map (f acc r))).2])).2.take
                  ((acc ++ [(internAll s (o.contents.map (f acc r))).2]).length + i))
                  (rs.getD i dr)))[k]? = some w := by
              rw [show (buildMaps f (r :: rs) (s :: ss) (o :: os) acc).2 =
                (buildMaps f rs ss os
                  (acc ++ [(internAll s (o.contents.map (f acc r))).2])).2
                from by simp only [buildMaps], hidx] at hw
              simpa using hw
            have hc := h3 k w hx
            simp only [buildMaps, List.getD_cons_succ]
            simpa using hc

theorem buildMaps_tables_extend {σ V : Type} [DecidableEq V]
    (f : List (List Nat) → σ → V → V) (d : InterningTable V) :
    ∀ (rs : List σ) (ss os : List (InterningTable V)) (acc : List (List Nat)) (i : Nat),
      ∃ tail, ((buildMaps f rs ss os acc).1.getD i d).contents =
        (ss.getD i d).contents ++ tail := by
  intro rs
  induction rs with
  | nil => intro ss os acc i; exact ⟨[], by simp [buildMaps]⟩
  | cons r rs ih =>
    intro ss os acc i
    cases ss with
    | nil => exact ⟨[], by simp [buildMaps]⟩
    | cons s ss =>
      cases os with
      | nil => exact ⟨[], by simp [buildMaps]⟩
      | cons o os =>
        cases i with
        | zero =>
          obtain ⟨tail, ht⟩ := internAll_extend (o.contents.map (f acc r)) s
          exact ⟨tail, by simp only [buildMaps, List.getD_cons_zero]; exact ht⟩
        | succ i =>
          obtain ⟨tail, ht⟩ :=
            ih ss os (acc ++ [(internAll s (o.contents.map (f acc r))).2]) i
          exact ⟨tail, by simp only [buildMaps, List.getD_cons_succ]; exact ht⟩

theorem mergeRels_getD (f : ColKind → SV → SV) :
    ∀ (cks : List (List ColKind)) (ss os : List (List (List SV))) (r : Nat),
      r < cks.length → r < ss.length → r < os.length →
      (mergeRels f cks ss os).getD r [] =
        ss.getD r [] ++
          (os.getD r []).map (fun tup => List.zipWith f (cks.getD r []) tup) := by
  intro cks
  induction cks with
  | nil => intro ss os r hr; simp at hr
  | cons ck cks ih =>
    intro ss os r hr hs ho
    cases ss with
    | nil => simp at hs
    | cons s ss =>
      cases os with
      | nil => simp at ho
      | cons o os =>
        cases r with
        | zero => simp [mergeRels]
        | succ r =>
          simp only [List.length_cons, Nat.succ_lt_succ_iff] at hr hs ho
          simp only [mergeRels, List.getD_cons_succ]
          exact ih ss os r hr hs ho

theorem advCounters_getD :
    ∀ (sc oc cs : List Nat) (k : Nat), k < sc.length → k < oc.length → k < cs.length →
      (advCounters sc oc cs).getD k 0 =
        sc.getD k 0 + (oc.getD k 0 - cs.getD k 0) := by
  intro sc
  induction sc with
  | nil => intro oc cs k hk; simp at hk
  | cons c0 sc ih =>
    intro oc cs k hk ho hc
    cases oc with
    | nil => simp at ho
    | cons o0 oc =>
      cases cs with
      | nil => simp at hc
      | cons n0 cs =>
        cases k with
        | zero => simp [advCounters]
        | succ k =>
          simp only [List.length_cons, Nat.succ_lt_succ_iff] at hk ho hc
          simp only [advCounters, List.getD_cons_succ]
          exact ih oc cs k hk ho hc

/-- C1: during `Tables::merge(other)`, an incremental-id column value `v` of
kind `k` in one of `other`'s relation tuples is copied unchanged when it lies
in the reserved-constant range (`v < num_constants(k)`) and is otherwise
shifted by `self`'s counter at merge start minus `num_constants(k)`; every
relation tuple of `other` is appended so remapped; and afterwards `self`'s
counter for each kind has grown by exactly `other`'s counter minus
`num_constants`. -/
theorem c1_merge_shift_and_counters (S : Schema) (self other : Tables) :
    (∀ k, k < S.incConsts.length → k < self.counters.length →
      k < other.counters.length →
      S.incConsts.getD k 0 ≤ other.counters.getD k 0 →
      (S.merge self other).counters.getD k 0 =
        self.counters.getD k 0 + (other.counters.getD k 0 - S.incConsts.getD k 0)) ∧
    (∀ r, r < S.relCols.length → r < self.relations.length →
      r < other.relations.length →
      (S.merge self other).relations.getD r [] =
        self.relations.getD r [] ++
          (other.relations.getD r []).map
            (fun tup => List.zipWith (S.mergeRemap self other) (S.relCols.getD r []) tup)) ∧
    (∀ k v, S.mergeRemap self other (.inc k) (.nat v) =
      .nat (if v < S.incConsts.getD k 0 then v
            else v + (self.counters.getD k 0 - S.incConsts.getD k 0))) := by
  refine ⟨?_, ?_, ?_⟩
  · intro k h1 h2 h3 _
    exact advCounters_getD self.counters other.counters S.incConsts k h2 h3 h1
  · intro r h1 h2 h3
    exact mergeRels_getD (S.mergeRemap self other) S.relCols self.relations
      other.relations r h1 h2 h3
  · intro k v
    simp only [Schema.mergeRemap, remapCol]
    by_cases h0 : 0 < S.incConsts.getD k 0
    · by_cases h1 : S.incConsts.getD k 0 ≤ v
      · rw [if_pos h0, if_pos h1, if_neg (Nat.not_lt.mpr h1)]
      · rw [if_pos h0, if_neg h1, if_pos (Nat.not_le.mp h1)]
    · rw [if_neg h0, if_neg (by omega)]

theorem c1_merge_shift_and_counters_witness :
    (({ incConsts := [1], scalarRefs := [], tupleRefs := [],
        relCols := [[.inc 0]] } : Schema).merge
      { counters := [3], scalars := [], tuples := [],
        relations := [[[.nat 1], [.nat 2]]] }
      { counters := [3], scalars := [], tuples := [],
        relations := [[[.nat 0], [.nat 1], [.nat 2]]] }).counters.getD 0 0 =
      3 + (3 - 1) ∧
    (({ incConsts := [1], scalarRefs := [], tupleRefs := [],
        relCols := [[.inc 0]] } : Schema).merge
      { counters := [3], scalars := [], tuples := [],
        relations := [[[.nat 1], [.nat 2]]] }
      { counters := [3], scalars := [], tuples := [],
        relations := [[[.nat 0], [.nat 1], [.nat 2]]] }).relations.getD 0 [] =
      [[.nat 1], [.nat 2], [.nat 0], [.nat 3], [.nat 4]] := by
  refine ⟨?_, ?_⟩
  · exact (c1_merge_shift_and_counters
      { incConsts := [1], scalarRefs := [], tupleRefs := [], relCols := [[.inc 0]] }
      { counters := [3], scalars := [], tuples := [],
        relations := [[[.nat 1], [.nat 2]]] }
      { counters := [3], scalars := [], tuples := [],
        relations := [[[.nat 0], [.nat 1], [.nat 2]]] }).1 0
      (by decide) (by decide) (by decide) (by decide)
  · rw [(c1_merge_shift_and_counters
      { incConsts := [1], scalarRefs := [], tupleRefs := [], relCols := [[.inc 0]] }
      { counters := [3], scalars := [], tuples := [],
        relations := [[[.nat 1], [.nat 2]]] }
      { counters := [3], scalars := [], tuples := [],
        relations := [[[.nat 0], [.nat 1], [.nat 2]]] }).2.1 0
      (by decide) (by decide) (by decide)]
    decide

/-- C10: `Tables::merge(other)` only appends to `self`: each of `self`'s
relations is an unchanged prefix of the merged relation, whose length is the
old length plus the length of `other`'s corresponding relation, and every
entry of each of `self`'s interning tables keeps its key (position) and value
— the merged table contents extend `self`'s by a suffix. -/
theorem c10_merge_appends_only (S : Schema) (self other : Tables) :
    (∀ r, r < S.relCols.length → r < self.relations.length →
      r < other.relations.length →
      (S.merge self other).relations.getD r [] =
        self.relations.getD r [] ++
          (other.relations.getD r []).map
            (fun tup => List.zipWith (S.mergeRemap self other) (S.relCols.getD r []) tup) ∧
      ((S.merge self other).relations.getD r []).length =
        (self.relations.getD r []).length + (other.relations.getD r []).length) ∧
    (∀ i, ∃ tail, ((S.merge self other).scalars.getD i ⟨[]⟩).contents =
      (self.scalars.getD i ⟨[]⟩).contents ++ tail) ∧
    (∀ i, ∃ tail, ((S.merge self other).tuples.getD i ⟨[]⟩).contents =
      (self.tuples.getD i ⟨[]⟩).contents ++ tail) := by
  refine ⟨?_, ?_, ?_⟩
  · intro r h1 h2 h3
    have he := mergeRels_getD (S.mergeRemap self other) S.relCols self.relations
      other.relations r h1 h2 h3
    refine ⟨he, ?_⟩
    have hm : (S.merge self other).relations =
        mergeRels (S.mergeRemap self other) S.relCols self.relations other.relations := rfl
    rw [hm, he]
    simp
  · intro i
    exact buildMaps_tables_extend remapSV ⟨[]⟩ S.scalarRefs self.scalars other.scalars [] i
  · intro i
    exact buildMaps_tables_extend _ ⟨[]⟩ S.tupleRefs self.tuples other.tuples [] i

theorem c10_merge_appends_only_witness :
    (({ incConsts := [], scalarRefs := [none], tupleRefs := [],
        relCols := [[.iScalar 0]] } : Schema).merge
      { counters := [], scalars := [⟨[.str "foo"]⟩], tuples := [],
        relations := [[[.nat 0]]] }
      { counters := [], scalars := [⟨[.str "bar"]⟩], tuples := [],
        relations := [[[.nat 0]]] }).relations.getD 0 [] =
      [[.nat 0]] ++ [[.nat 1]] := by
  have h := (c10_merge_appends_only
    { incConsts := [], scalarRefs := [none], tupleRefs := [], relCols := [[.iScalar 0]] }
    { counters := [], scalars := [⟨[.str "foo"]⟩], tuples := [],
      relations := [[[.nat 0]]] }
    { counters := [], scalars := [⟨[.str "bar"]⟩], tuples := [],
      relations := [[[.nat 0]]] }).1 0 (by decide) (by decide) (by decide)
  rw [h.1]
  decide

/-- C2: during `Tables::merge(other)` a map `old_key → new_key` is built for
every interning table — scalar-valued tables first, then tuple-valued tables
whose columns go through the maps already built — by re-interning every value
of `other`'s table into `self`'s table: the map is total on `other`'s keys, the
new key points at the re-interned (remapped) value in the merged table, a value
equal to one already present in `self` collapses onto the existing key, a new
value gets a key beyond all of `self`'s existing keys, and every interned-id
relation column is replaced through the map of its table. -/
theorem c2_merge_interning_collapse (S : Schema) (self other : Tables) :
    (∀ i, i < S.scalarRefs.length → i < self.scalars.length → i < other.scalars.length →
      ∃ mi, (S.mergeSMaps self other)[i]? = some mi ∧
        mi.length = (other.scalars.getD i ⟨[]⟩).contents.length ∧
        (∀ k w, ((other.scalars.getD i ⟨[]⟩).contents.map
              (remapSV ((S.mergeSMaps self other).take i) (S.scalarRefs.getD i none)))[k]?
            = some w →
          ((S.merge self other).scalars.getD i ⟨[]⟩).contents[mi.getD k 0]? = some w ∧
          (∀ k0, idxOf? (self.scalars.getD i ⟨[]⟩).contents w = some k0 →
            mi.getD k 0 = k0) ∧
          (w ∉ (self.scalars.getD i ⟨[]⟩).contents →
            (self.scalars.getD i ⟨[]⟩).contents.length ≤ mi.getD k 0))) ∧
    (∀ i, i < S.tupleRefs.length → i < self.tuples.length → i < other.tuples.length →
      ∃ mi, (S.mergeTMaps self other)[i]? = some mi ∧
        mi.length = (other.tuples.getD i ⟨[]⟩).contents.length ∧
        (∀ k w, ((other.tuples.getD i ⟨[]⟩).contents.map
              (fun tup => List.zipWith (remapSV (S.mergeSMaps self other))
                (S.tupleRefs.getD i []) tup))[k]?
            = some w →
          ((S.merge self other).tuples.getD i ⟨[]⟩).contents[mi.getD k 0]? = some w ∧
          (∀ k0, idxOf? (self.tuples.getD i ⟨[]⟩).contents w = some k0 →
            mi.getD k 0 = k0) ∧
          (w ∉ (self.tuples.getD i ⟨[]⟩).contents →
            (self.tuples.getD i ⟨[]⟩).contents.length ≤ mi.getD k 0))) ∧
    (∀ j v, S.mergeRemap self other (.iScalar j) (.nat v) =
      .nat (((S.mergeSMaps self other).getD j []).getD v 0)) ∧
    (∀ j v, S.mergeRemap self other (.iTuple j) (.nat v) =
      .nat (((S.mergeTMaps self other).getD j []).getD v 0)) := by
  refine ⟨?_, ?_, fun j v => rfl, fun j v => rfl⟩
  · intro i h1 h2 h3
    obtain ⟨mi, hm1, hm2, hm3⟩ := buildMaps_spec remapSV ⟨[]⟩ none
      S.scalarRefs self.scalars other.scalars [] i h1 h2 h3
    refine ⟨mi, ?_, hm2, ?_⟩
    · simpa [Schema.mergeSMaps, Schema.mergeScalars] using hm1
    · intro k w hw
      have hw2 : ((other.scalars.getD i ⟨[]⟩).contents.map
          (remapSV ((buildMaps remapSV S.scalarRefs self.scalars other.scalars []).2.take
            (([] : List (List Nat)).length + i)) (S.scalarRefs.getD i none)))[k]? =
            some w := by
        simpa [Schema.mergeSMaps, Schema.mergeScalars] using hw
      have hc := hm3 k w hw2
      refine ⟨?_, hc.2.1, hc.2.2⟩
      have hmt : (S.merge self other).scalars =
          (buildMaps remapSV S.scalarRefs self.scalars other.scalars []).1 := rfl
      rw [hmt]
      exact hc.1
  · intro i h1 h2 h3
    obtain ⟨mi, hm1, hm2, hm3⟩ := buildMaps_spec
      (fun _ rs tup => List.zipWith (remapSV (S.mergeSMaps self other)) rs tup) ⟨[]⟩ []
      S.tupleRefs self.tuples other.tuples [] i h1 h2 h3
    refine ⟨mi, ?_, hm2, ?_⟩
    · simpa [Schema.mergeTMaps, Schema.mergeTuples] using hm1
    · intro k w hw
      have hw2 : ((other.tuples.getD i ⟨[]⟩).contents.map
          ((fun _ rs tup => List.zipWith (remapSV (S.mergeSMaps self other)) rs tup)
            ((buildMaps
              (fun _ rs tup => List.zipWith (remapSV (S.mergeSMaps self other)) rs tup)
              S.tupleRefs self.tuples other.tuples []).2.take
              (([] : List (List Nat)).length + i)) (S.tupleRefs.getD i [])))[k]? =
              some w := by
        simpa using hw
      have hc := hm3 k w hw2
      refine ⟨?_, hc.2.1, hc.2.2⟩
      have hmt : (S.merge self other).tuples =
          (buildMaps
            (fun _ rs tup => List.zipWith (remapSV (S.mergeSMaps self other)) rs tup)
            S.tupleRefs self.tuples other.tuples []).1 := rfl
      rw [hmt]
      exact hc.1

theorem c2_merge_interning_collapse_witness :
    (({ incConsts := [], scalarRefs := [none], tupleRefs := [],
        relCols := [[.iScalar 0]] } : Schema).merge
      { counters := [], scalars := [⟨[.str "foo", .str "bar"]⟩], tuples := [],
        relations := [[]] }
      { counters := [], scalars := [⟨[.str "bar", .str "baz"]⟩], tuples := [],
        relations := [[[.nat 0]]] }).scalars.getD 0 ⟨[]⟩ =
      ⟨[.str "foo", .str "bar", .str "baz"]⟩ ∧
    ({ incConsts := [], scalarRefs := [none], tupleRefs := [],
        relCols := [[.iScalar 0]] } : Schema).mergeSMaps
      { counters := [], scalars := [⟨[.str "foo", .str "bar"]⟩], tuples := [],
        relations := [[]] }
      { counters := [], scalars := [⟨[.str "bar", .str "baz"]⟩], tuples := [],
        relations := [[[.nat 0]]] } = [[1, 2]] ∧
    (({ incConsts := [], scalarRefs := [none], tupleRefs := [],
        relCols := [[.iScalar 0]] } : Schema).merge
      { counters := [], scalars := [⟨[.str "foo", .str "bar"]⟩], tuples := [],
        relations := [[]] }
      { counters := [], scalars := [⟨[.str "bar", .str "baz"]⟩], tuples := [],
        relations := [[[.nat 0]]] }).relations.getD 0 [] = [[.nat 1]] ∧
    ({ incConsts := [], scalarRefs := [none], tupleRefs := [],
        relCols := [[.iScalar 0]] } : Schema).mergeRemap
      { counters := [], scalars := [⟨[.str "foo", .str "bar"]⟩], tuples := [],
        relations := [[]] }
      { counters := [], scalars := [⟨[.str "bar", .str "baz"]⟩], tuples := [],
        relations := [[[.nat 0]]] } (.iScalar 0) (.nat 0) = .nat 1 := by
  refine ⟨by decide, by decide, by decide, ?_⟩
  rw [(c2_merge_interning_collapse
    { incConsts := [], scalarRefs := [none], tupleRefs := [], relCols := [[.iScalar 0]] }
    { counters := [], scalars := [⟨[.str "foo", .str "bar"]⟩], tuples := [],
      relations := [[]] }
    { counters := [], scalars := [⟨[.str "bar", .str "baz"]⟩], tuples := [],
      relations := [[[.nat 0]]] }).2.2.1 0 0]
  decide

/-- C4 counterexample: the generated `get_fresh_<kind>` increments its counter
with an unchecked `+= 1`; compiled without overflow checks (the default
release profile) the increment past the top of an 8-bit backing type wraps
silently to 0 — the id 255 is returned and the counter becomes 0, with no
diagnostic — contradicting the claim that incrementing past the representable
range is always a fatal abort and never a silent wraparound. -/
theorem c4_get_fresh_wraps_cex : getFreshWrap 8 255 = (255, 0) := by decide

/-- C4 (amended): *shifting* an incremental id past the representable range is
a fatal abort and never produces a wrapped value — `shift` uses
`checked_add(..).expect("Overflow!")`, so an 8-bit id shifted past 255 panics
rather than wrapping to 0 — while the counter increment in `get_fresh_<kind>`
uses an unchecked `+=`, which panics only under a debug profile and wraps
silently when overflow checks are disabled. -/
theorem c4_overflow_semantics :
    (∀ v off, 2 ^ 8 ≤ v + off → shiftChecked 8 v off = none) ∧
    (∀ w v off r, shiftChecked w v off = some r → r = v + off) ∧
    shiftChecked 8 255 1 = none ∧
    getFreshWrap 8 255 = (255, 0) ∧
    getFreshChecked 8 255 = none := by
  refine ⟨?_, ?_, by decide, by decide, by decide⟩
  · intro v off h
    simp [shiftChecked]
    omega
  · intro w v off r h
    simp only [shiftChecked] at h
    by_cases hc : v + off < 2 ^ w
    · rw [if_pos hc] at h
      exact (Option.some.inj h).symm
    · rw [if_neg hc] at h
      exact absurd h (by simp)

/-- C8 counterexample: with no crate previously loaded and one new crate
discovered, `update_database` merges the crate *before* deleting
`loaded_crates.json` — the deletion happens only after the whole merge pass,
contradicting the claim that the manifest is deleted before the merge pass
begins. -/
theorem c8_delete_after_merge_cex :
    updateDatabaseTrace [] [7] =
      [.mergeCrate 7, .deleteManifest, .storeCorpus, .writeManifest] := by decide

/-- C8 (amended): in `update_database` the whole in-memory merge pass over the
newly discovered per-unit stores runs first; `loaded_crates.json` is deleted
*after* the merge pass but *before* the corpus write (`store_multifile`), and
it is rewritten only after the corpus write, as the final step. -/
theorem c8_manifest_lifecycle (loaded crates : List Nat) :
    (∀ i, i < (crates.filter (fun c => !(loaded.contains c))).length →
      ∃ c, (updateDatabaseTrace loaded crates)[i]? = some (.mergeCrate c)) ∧
    (updateDatabaseTrace loaded
        crates)[(crates.filter (fun c => !(loaded.contains c))).length]? =
      some .deleteManifest ∧
    (updateDatabaseTrace loaded
        crates)[(crates.filter (fun c => !(loaded.contains c))).length + 1]? =
      some .storeCorpus ∧
    (updateDatabaseTrace loaded
        crates)[(crates.filter (fun c => !(loaded.contains c))).length + 2]? =
      some .writeManifest ∧
    (updateDatabaseTrace loaded crates).length =
      (crates.filter (fun c => !(loaded.contains c))).length + 3 := by
  refine ⟨?_, ?_, ?_, ?_, ?_⟩
  · intro i hi
    have hmap : i < ((crates.filter (fun c => !(loaded.contains c))).map
        MgrEv.mergeCrate).length := by simpa using hi
    rw [updateDatabaseTrace, List.getElem?_append_left hmap, List.getElem?_map]
    refine ⟨(crates.filter (fun c => !(loaded.contains c))).get ⟨i, hi⟩, ?_⟩
    rw [List.getElem?_eq_some_iff.mpr ⟨hi, rfl⟩]
    rfl
  · rw [updateDatabaseTrace, List.getElem?_append_right (by simp)]
    simp
  · rw [updateDatabaseTrace, List.getElem?_append_right (by simp)]
    simp
  · rw [updateDatabaseTrace, List.getElem?_append_right (by simp)]
    simp
  · simp [updateDatabaseTrace]

/-- C9 counterexample: when the corpus directory exists but the manifest file
is absent, `DatabaseManager::new` panics ("The database state is corrupted
...") instead of rebuilding the merged-unit bookkeeping from the corpus. -/
theorem c9_missing_manifest_panics_cex : databaseManagerNew true none = .panic := rfl

/-- C9 (amended): the absence (or unreadability) of `loaded_crates.json` while
the corpus directory exists is treated as fatal corruption — the manager
panics; a present manifest is parsed and used as the loaded set; and only when
the corpus directory itself does not exist does the manager start with empty
bookkeeping. -/
theorem c9_manifest_absence_semantics (l : List Nat) :
    databaseManagerNew true none = .panic ∧
    databaseManagerNew true (some l) = .ok l ∧
    databaseManagerNew false none = .ok [] :=
  ⟨rfl, rfl, rfl⟩

/-- C7 counterexample: loading the single-file form of a `Tables` from a path
that does not exist returns an error (`OpenFileError`), not a
structurally-empty `Tables` — `Tables::load_single_file` calls
`storage::load`, not `storage::load_or_default`. -/
theorem c7_missing_single_file_cex :
    Tables.loadSingle [] (.single "corpus" "bincode") =
      .error (.openErr (.single "corpus" "bincode")) := rfl

/-- C7 (amended): for a path that does not exist, `Tables::load_single_file`
(= `Tables::load` = `storage::load`) returns an `OpenFileError`; the
default-on-missing behaviour lives in `storage::load_or_default` (which the
single-file loaders do not use), and it returns `Tables::default()` — every
counter at its kind's reserved-constant floor, every interning table and
relation empty. -/
theorem c7_missing_single_file (S : Schema) (fs : FS) (k : FsKey)
    (h : fsRead fs k = none) :
    storageLoadOrDefaultTables S fs k = .ok S.defaultTables ∧
    Tables.loadSingle fs k = .error (.openErr k) ∧
    S.defaultTables.counters = S.incConsts ∧
    (∀ i, (S.defaultTables.scalars.getD i ⟨[]⟩).contents = []) ∧
    (∀ i, (S.defaultTables.tuples.getD i ⟨[]⟩).contents = []) ∧
    (∀ r, S.defaultTables.relations.getD r [] = []) := by
  refine ⟨?_, ?_, rfl, ?_, ?_, ?_⟩
  · simp [storageLoadOrDefaultTables, h]
  · simp [Tables.loadSingle, storageLoad, h]
  · intro i
    simp only [Schema.defaultTables, List.getD_eq_getElem?_getD, List.getElem?_map]
    cases S.scalarRefs[i]? <;> simp
  · intro i
    simp only [Schema.defaultTables, List.getD_eq_getElem?_getD, List.getElem?_map]
    cases S.tupleRefs[i]? <;> simp
  · intro r
    simp only [Schema.defaultTables, List.getD_eq_getElem?_getD, List.getElem?_map]
    cases S.relCols[r]? <;> simp

theorem c7_missing_single_file_witness :
    fsRead ([] : FS) (.single "db" "bincode") = none ∧
    storageLoadOrDefaultTables ⟨[2], [none], [], [[]]⟩ [] (.single "db" "bincode") =
      .ok (Schema.defaultTables ⟨[2], [none], [], [[]]⟩) ∧
    (Schema.defaultTables ⟨[2], [none], [], [[]]⟩).counters = [2] :=
  ⟨rfl,
    (c7_missing_single_file ⟨[2], [none], [], [[]]⟩ [] (.single "db" "bincode") rfl).1,
    by decide⟩

theorem getD_of_le {α : Type} (l : List α) (i : Nat) (d : α) (h : l.length ≤ i) :
    l.getD i d = d := by
  simp [List.getD_eq_getElem?_getD, List.getElem?_eq_none h]

theorem getD_of_getElem? {α : Type} {l : List α} {i : Nat} {x : α} (d : α)
    (h : l[i]? = some x) : l.getD i d = x := by
  simp [List.getD_eq_getElem?_getD, h]

theorem getD_set_self {α : Type} (l : List α) (i : Nat) (x d : α) (h : i < l.length) :
    (l.set i x).getD i d = x := by
  simp [List.getD_eq_getElem?_getD, List.getElem?_set_self h]

theorem getD_set_ne {α : Type} (l : List α) (i j : Nat) (x d : α) (h : j ≠ i) :
    (l.set j x).getD i d = l.getD i d := by
  simp [List.getD_eq_getElem?_getD, List.getElem?_set_ne h]

theorem set_getD_refl {α : Type} : ∀ (l : List α) (i : Nat) (d : α),
    l.set i (l.getD i d) = l := by
  intro l
  induction l with
  | nil => intro i d; rfl
  | cons x xs ih =>
    intro i d
    cases i with
    | zero => rfl
    | succ i =>
      show x :: xs.set i (xs.getD i d) = x :: xs
      rw [ih i d]

theorem tabsExtend_refl (t : List (InterningTable SV)) : TabsExtend t t :=
  fun i => ⟨[], by simp⟩

theorem tabsExtend_trans {t1 t2 t3 : List (InterningTable SV)}
    (h12 : TabsExtend t1 t2) (h23 : TabsExtend t2 t3) : TabsExtend t1 t3 := by
  intro i
  obtain ⟨e1, he1⟩ := h12 i
  obtain ⟨e2, he2⟩ := h23 i
  exact ⟨e1 ++ e2, by rw [he2, he1, List.append_assoc]⟩

theorem tabsExtend_set (tabs : List (InterningTable SV)) (j : Nat)
    (t2 : InterningTable SV)
    (h : ∃ tail, t2.contents = (tabs.getD j ⟨[]⟩).contents ++ tail) :
    TabsExtend tabs (tabs.set j t2) := by
  intro i
  by_cases hj : j < tabs.length
  · by_cases hij : i = j
    · subst hij
      rw [getD_set_self tabs i t2 ⟨[]⟩ hj]
      exact h
    · rw [getD_set_ne tabs i j t2 ⟨[]⟩ (fun he => hij he.symm)]
      exact ⟨[], by simp⟩
  · rw [List.set_eq_of_length_le (Nat.le_of_not_lt hj)]
    exact ⟨[], by simp⟩

theorem chainIntern_length : ∀ (js : List Nat) (tabs : List (InterningTable SV)) (v : SV),
    (chainIntern tabs js v).2.length = tabs.length := by
  intro js
  induction js with
  | nil => intro tabs v; rfl
  | cons j js ih =>
    intro tabs v
    show (chainIntern (tabs.set j _) js _).2.length = tabs.length
    rw [ih]
    simp

theorem chainIntern_extend : ∀ (js : List Nat) (tabs : List (InterningTable SV)) (v : SV),
    TabsExtend tabs (chainIntern tabs js v).2 := by
  intro js
  induction js with
  | nil => intro tabs v; exact tabsExtend_refl tabs
  | cons j js ih =>
    intro tabs v
    have h1 : TabsExtend tabs
        (tabs.set j ((tabs.getD j ⟨[]⟩).intern v).2) := by
      apply tabsExtend_set
      obtain ⟨tail, ht, _⟩ := intern_extend (tabs.getD j ⟨[]⟩) v
      exact ⟨tail, ht⟩
    exact tabsExtend_trans h1 (ih _ _)

/-- Re-running an intern chain on any state that extends the chain's
post-state returns the same key and changes nothing: all intermediate values
are already interned at their keys. -/
theorem chainIntern_stable : ∀ (js : List Nat) (tabs : List (InterningTable SV)) (v : SV)
    (tabs2 : List (InterningTable SV)),
    TabsExtend (chainIntern tabs js v).2 tabs2 →
    tabs2.length = tabs.length →
    chainIntern tabs2 js v = ((chainIntern tabs js v).1, tabs2) := by
  intro js
  induction js with
  | nil => intro tabs v tabs2 _ _; rfl
  | cons j js ih =>
    intro tabs v tabs2 hext hlen
    have hstep : (chainIntern tabs (j :: js) v) =
        chainIntern (tabs.set j ((tabs.getD j ⟨[]⟩).intern v).2) js
          (.nat ((tabs.getD j ⟨[]⟩).intern v).1) := rfl
    by_cases hj : j < tabs.length
    · have hT1 : ((tabs.set j ((tabs.getD j ⟨[]⟩).intern v).2).getD j ⟨[]⟩) =
          ((tabs.getD j ⟨[]⟩).intern v).2 :=
        getD_set_self tabs j _ ⟨[]⟩ hj
      have hT1ext : TabsExtend (tabs.set j ((tabs.getD j ⟨[]⟩).intern v).2) tabs2 :=
        tabsExtend_trans (chainIntern_extend js _ _) (hstep ▸ hext)
      obtain ⟨tail, htail⟩ := hT1ext j
      rw [hT1] at htail
      have hidx : idxOf? (tabs2.getD j ⟨[]⟩).contents v =
          some ((tabs.getD j ⟨[]⟩).intern v).1 := by
        rw [htail]
        exact idxOf?_append_of_some _ _ _ _ (intern_idxOf (tabs.getD j ⟨[]⟩) v)
      have hq : (tabs2.getD j ⟨[]⟩).intern v =
          (((tabs.getD j ⟨[]⟩).intern v).1, tabs2.getD j ⟨[]⟩) := by
        have hdef : (tabs2.getD j ⟨[]⟩).intern v =
            match idxOf? (tabs2.getD j ⟨[]⟩).contents v with
            | some k => (k, tabs2.getD j ⟨[]⟩)
            | none => ((tabs2.getD j ⟨[]⟩).contents.length,
                ⟨(tabs2.getD j ⟨[]⟩).contents ++ [v]⟩) := rfl
        rw [hdef, hidx]
      show chainIntern (tabs2.set j ((tabs2.getD j ⟨[]⟩).intern v).2) js
          (.nat ((tabs2.getD j ⟨[]⟩).intern v).1) = _
      rw [hq]
      rw [set_getD_refl tabs2 j ⟨[]⟩]
      have := ih (tabs.set j ((tabs.getD j ⟨[]⟩).intern v).2)
        (.nat ((tabs.getD j ⟨[]⟩).intern v).1) tabs2 (hstep ▸ hext)
        (by rw [hlen]; simp)
      rw [this, hstep]
    · have hout : tabs.getD j ⟨[]⟩ = ⟨[]⟩ :=
        getD_of_le tabs j ⟨[]⟩ (Nat.le_of_not_lt hj)
      have hout2 : tabs2.getD j ⟨[]⟩ = ⟨[]⟩ :=
        getD_of_le tabs2 j ⟨[]⟩ (by rw [hlen]; exact Nat.le_of_not_lt hj)
      have hset : tabs.set j ((tabs.getD j ⟨[]⟩).intern v).2 = tabs :=
        List.set_eq_of_length_le (Nat.le_of_not_lt hj)
      have hset2 : tabs2.set j ((tabs2.getD j ⟨[]⟩).intern v).2 = tabs2 :=
        List.set_eq_of_length_le (by rw [hlen]; exact Nat.le_of_not_lt hj)
      show chainIntern (tabs2.set j ((tabs2.getD j ⟨[]⟩).intern v).2) js
          (.nat ((tabs2.getD j ⟨[]⟩).intern v).1) = _
      rw [hset2, hout2]
      have hkey : ((⟨[]⟩ : InterningTable SV).intern v).1 = 0 := rfl
      rw [hkey]
      have hsame : (chainIntern tabs (j :: js) v) = chainIntern tabs js (.nat 0) := by
        rw [hstep, hset, hout, hkey]
      rw [hsame]
      exact ih tabs (.nat 0) tabs2 (by rw [← hsame]; exact hext) hlen

theorem chainResolve_append (tabs : List (InterningTable SV)) :
    ∀ (l1 l2 : List Nat) (w : SV),
      chainResolve tabs (l1 ++ l2) w =
        chainResolve tabs l2 (chainResolve tabs l1 w) := by
  intro l1
  induction l1 with
  | nil => intro l2 w; rfl
  | cons j l1 ih =>
    intro l2 w
    cases w with
    | nat k =>
      show chainResolve tabs (l1 ++ l2) _ = _
      rw [ih]
      rfl
    | str s =>
      show chainResolve tabs (l1 ++ l2) _ = _
      rw [ih]
      rfl

/-- Resolving the key produced by an intern chain — in any state extending the
chain's post-state — recovers the original value. -/
theorem chainResolve_correct : ∀ (js : List Nat) (tabs : List (InterningTable SV))
    (v : SV) (tabs2 : List (InterningTable SV)),
    (∀ j ∈ js, j < tabs.length) →
    TabsExtend (chainIntern tabs js v).2 tabs2 →
    chainResolve tabs2 js.reverse (chainIntern tabs js v).1 = v := by
  intro js
  induction js with
  | nil => intro tabs v tabs2 _ _; rfl
  | cons j js ih =>
    intro tabs v tabs2 hrange hext
    have hj : j < tabs.length := hrange j (by simp)
    have hstep : (chainIntern tabs (j :: js) v) =
        chainIntern (tabs.set j ((tabs.getD j ⟨[]⟩).intern v).2) js
          (.nat ((tabs.getD j ⟨[]⟩).intern v).1) := rfl
    have hrev : (j :: js).reverse = js.reverse ++ [j] := by simp
    rw [hrev, chainResolve_append]
    have hres : chainResolve tabs2 js.reverse (chainIntern tabs (j :: js) v).1 =
        .nat ((tabs.getD j ⟨[]⟩).intern v).1 := by
      rw [hstep]
      exact ih (tabs.set j ((tabs.getD j ⟨[]⟩).intern v).2)
        (.nat ((tabs.getD j ⟨[]⟩).intern v).1) tabs2
        (fun j2 hj2 => by rw [List.length_set]; exact hrange j2 (by simp [hj2]))
        (hstep ▸ hext)
    rw [hres]
    have hT1 : ((tabs.set j ((tabs.getD j ⟨[]⟩).intern v).2).getD j ⟨[]⟩) =
        ((tabs.getD j ⟨[]⟩).intern v).2 :=
      getD_set_self tabs j _ ⟨[]⟩ hj
    have hT1ext : TabsExtend (tabs.set j ((tabs.getD j ⟨[]⟩).intern v).2) tabs2 :=
      tabsExtend_trans (chainIntern_extend js _ _) (hstep ▸ hext)
    obtain ⟨tail, htail⟩ := hT1ext j
    rw [hT1] at htail
    have hget : (tabs2.getD j ⟨[]⟩).contents[((tabs.getD j ⟨[]⟩).intern v).1]? =
        some v := by
      rw [htail]
      exact getElem?_append_some _ _ _ _ (intern_get (tabs.getD j ⟨[]⟩) v)
    show chainResolve tabs2 []
        ((tabs2.getD j ⟨[]⟩).contents.getD ((tabs.getD j ⟨[]⟩).intern v).1 (.nat 0)) = v
    rw [getD_of_getElem? (.nat 0) hget]
    rfl

theorem getD_zero_headD {α : Type} (l : List α) (d : α) : l.getD 0 d = l.headD d := by
  cases l <;> rfl

theorem tail_getD {α : Type} (l : List α) (n : Nat) (d : α) :
    l.tail.getD n d = l.getD (n + 1) d := by
  cases l <;> rfl

theorem processParams_cols_length :
    ∀ (specs : List ParamSpec) (args : List SV) (ctrs : List Nat)
      (tabs : List (InterningTable SV)),
      (processParams specs args ctrs tabs).cols.length = specs.length := by
  intro specs
  induction specs with
  | nil => intro args ctrs tabs; rfl
  | cons sp specs ih =>
    intro args ctrs tabs
    cases sp with
    | auto k => simp only [processParams, List.length_cons]; rw [ih]
    | chain js => simp only [processParams, List.length_cons]; rw [ih]

theorem processParams_autos :
    ∀ (specs : List ParamSpec) (args : List SV) (ctrs : List Nat)
      (tabs : List (InterningTable SV)),
      (processParams specs args ctrs tabs).autos =
        autoCols specs (processParams specs args ctrs tabs).cols := by
  intro specs
  induction specs with
  | nil => intro args ctrs tabs; rfl
  | cons sp specs ih =>
    intro args ctrs tabs
    cases sp with
    | auto k =>
      simp only [processParams, autoCols]
      rw [ih args (ctrs.set k (ctrs.getD k 0 + 1)) tabs]
    | chain js =>
      simp only [processParams, autoCols]
      rw [ih args.tail ctrs (chainIntern tabs js (args.headD (.nat 0))).2]

theorem processParams_ctrs :
    ∀ (specs : List ParamSpec) (args : List SV) (ctrs : List Nat)
      (tabs : List (InterningTable SV)) (k : Nat), k < ctrs.length →
      (processParams specs args ctrs tabs).ctrs.getD k 0 =
        ctrs.getD k 0 + countAuto specs k := by
  intro specs
  induction specs with
  | nil => intro args ctrs tabs k _; simp [processParams, countAuto]
  | cons sp specs ih =>
    intro args ctrs tabs k hk
    cases sp with
    | auto k2 =>
      have hrec := ih args (ctrs.set k2 (ctrs.getD k2 0 + 1)) tabs k (by simpa using hk)
      simp only [processParams]
      rw [hrec]
      by_cases he : k2 = k
      · rw [he]
        rw [getD_set_self ctrs k (ctrs.getD k 0 + 1) 0 hk]
        have hca : countAuto (ParamSpec.auto k :: specs) k = 1 + countAuto specs k := by
          simp [countAuto]
        rw [hca]
        omega
      · rw [getD_set_ne ctrs k k2 (ctrs.getD k2 0 + 1) 0 he]
        simp only [countAuto, if_neg he]
        omega
    | chain js =>
      simp only [processParams, countAuto]
      exact ih args.tail ctrs _ k hk

theorem processParams_tabs_length :
    ∀ (specs : List ParamSpec) (args : List SV) (ctrs : List Nat)
      (tabs : List (InterningTable SV)),
      (processParams specs args ctrs tabs).tabs.length = tabs.length := by
  intro specs
  induction specs with
  | nil => intro args ctrs tabs; rfl
  | cons sp specs ih =>
    intro args ctrs tabs
    cases sp with
    | auto k => simp only [processParams]; exact ih args _ tabs
    | chain js =>
      simp only [processParams]
      rw [ih args.tail ctrs _]
      exact chainIntern_length js tabs _

theorem processParams_tabs_extend :
    ∀ (specs : List ParamSpec) (args : List SV) (ctrs : List Nat)
      (tabs : List (InterningTable SV)),
      TabsExtend tabs (processParams specs args ctrs tabs).tabs := by
  intro specs
  induction specs with
  | nil => intro args ctrs tabs; exact tabsExtend_refl tabs
  | cons sp specs ih =>
    intro args ctrs tabs
    cases sp with
    | auto k => exact ih args _ tabs
    | chain js =>
      exact tabsExtend_trans (chainIntern_extend js tabs _) (ih args.tail ctrs _)

/-- Running the generated registration body a second time, from the state the
first run produced, leaves the interning tables unchanged and computes the
same interned key for every interned parameter. -/
theorem processParams_idem :
    ∀ (specs : List ParamSpec) (args : List SV) (ctrs1 ctrs2 : List Nat)
      (tabs : List (InterningTable SV)),
      (processParams specs args ctrs2 (processParams specs args ctrs1 tabs).tabs).tabs
        = (processParams specs args ctrs1 tabs).tabs ∧
      (∀ (i : Nat) (js : List Nat), specs[i]? = some (.chain js) →
        (processParams specs args ctrs2
            (processParams specs args ctrs1 tabs).tabs).cols[i]? =
          (processParams specs args ctrs1 tabs).cols[i]?) := by
  intro specs
  induction specs with
  | nil =>
    intro args ctrs1 ctrs2 tabs
    exact ⟨rfl, fun i js h => by simp at h⟩
  | cons sp specs ih =>
    intro args ctrs1 ctrs2 tabs
    cases sp with
    | auto k =>
      have hrec := ih args (ctrs1.set k (ctrs1.getD k 0 + 1))
        (ctrs2.set k (ctrs2.getD k 0 + 1)) tabs
      simp only [processParams]
      refine ⟨hrec.1, ?_⟩
      intro i js hi
      cases i with
      | zero => simp at hi
      | succ i =>
        rw [List.getElem?_cons_succ] at hi
        simp only [List.getElem?_cons_succ]
        exact hrec.2 i js hi
    | chain js0 =>
      have hstable := chainIntern_stable js0 tabs (args.headD (.nat 0))
        (processParams specs args.tail ctrs1
          (chainIntern tabs js0 (args.headD (.nat 0))).2).tabs
        (processParams_tabs_extend specs args.tail ctrs1 _)
        (by
          rw [processParams_tabs_length]
          exact chainIntern_length js0 tabs _)
      have hrec := ih args.tail ctrs1 ctrs2
        (chainIntern tabs js0 (args.headD (.nat 0))).2
      simp only [processParams]
      rw [hstable]
      refine ⟨hrec.1, ?_⟩
      intro i js hi
      cases i with
      | zero => simp only [List.getElem?_cons_zero]
      | succ i =>
        rw [List.getElem?_cons_succ] at hi
        simp only [List.getElem?_cons_succ]
        exact hrec.2 i js hi

/-- Every `chain` parameter's stored column, resolved back through its chain of
interning tables in the final state, is the caller's argument for that
parameter. -/
theorem processParams_chain_resolve :
    ∀ (specs : List ParamSpec) (args : List SV) (ctrs : List Nat)
      (tabs : List (InterningTable SV)) (i : Nat) (js : List Nat),
      specs[i]? = some (ParamSpec.chain js) →
      (∀ j ∈ js, j < tabs.length) →
      chainResolve (processParams specs args ctrs tabs).tabs js.reverse
          ((processParams specs args ctrs tabs).cols.getD i (.nat 0)) =
        args.getD (chainArgIdx specs i) (.nat 0) := by
  intro specs
  induction specs with
  | nil => intro args ctrs tabs i js hi; simp at hi
  | cons sp specs ih =>
    intro args ctrs tabs i js hi hrange
    cases sp with
    | auto k =>
      cases i with
      | zero => simp at hi
      | succ i =>
        rw [List.getElem?_cons_succ] at hi
        simp only [processParams, List.getD_cons_succ]
        show chainResolve (processParams specs args _ tabs).tabs js.reverse
            ((processParams specs args _ tabs).cols.getD i (.nat 0)) =
          args.getD (chainArgIdx (ParamSpec.auto k :: specs) (i + 1)) (.nat 0)
        rw [show chainArgIdx (ParamSpec.auto k :: specs) (i + 1) =
          chainArgIdx specs i from rfl]
        exact ih args _ tabs i js hi hrange
    | chain js0 =>
      cases i with
      | zero =>
        rw [List.getElem?_cons_zero] at hi
        have hj : js0 = js := ParamSpec.chain.inj (Option.some.inj hi)
        rw [← hj]
        simp only [processParams, List.getD_cons_zero]
        rw [show chainArgIdx (ParamSpec.chain js0 :: specs) 0 = 0 from rfl,
          getD_zero_headD]
        exact chainResolve_correct js0 tabs (args.headD (.nat 0)) _
          (fun j hjj => hrange j (hj ▸ hjj))
          (processParams_tabs_extend specs args.tail ctrs _)
      | succ i =>
        rw [List.getElem?_cons_succ] at hi
        simp only [processParams, List.getD_cons_succ]
        rw [show chainArgIdx (ParamSpec.chain js0 :: specs) (i + 1) =
          chainArgIdx specs i + 1 from rfl]
        rw [← tail_getD args (chainArgIdx specs i) (.nat 0)]
        exact ih args.tail ctrs _ i js hi
          (fun j hj => by
            rw [chainIntern_length]
            exact hrange j hj)

/-- C5: the generated relation-registration operation routes every interned
parameter through its `InterningTable.intern` call chain (the stored key
resolves back to the caller's argument), fetches every `auto` parameter from
`Counters.fresh_<kind>` (incrementing that kind's counter once per `auto`
parameter; the caller does not supply it) and returns the `auto` outputs, and
appends exactly one tuple to the relation; a second call with equal logical
arguments computes the same interned keys and leaves the interning tables
unchanged, but appends a second, separate fact tuple. -/
theorem c5_registration (T : Tables) (specs : List ParamSpec) (r : Nat)
    (args : List SV) :
    (r < T.relations.length →
      (T.register specs r args).2.relations.getD r [] =
        T.relations.getD r [] ++ [(T.registerRun specs args).cols] ∧
      ((T.register specs r args).2.relations.getD r []).length =
        (T.relations.getD r []).length + 1) ∧
    (∀ r2, r2 ≠ r →
      (T.register specs r args).2.relations.getD r2 [] = T.relations.getD r2 []) ∧
    (T.registerRun specs args).cols.length = specs.length ∧
    (T.register specs r args).1 = autoCols specs (T.registerRun specs args).cols ∧
    (∀ k, k < T.counters.length →
      (T.register specs r args).2.counters.getD k 0 =
        T.counters.getD k 0 + countAuto specs k) ∧
    (∀ (i : Nat) (js : List Nat), specs[i]? = some (ParamSpec.chain js) →
      (∀ j ∈ js, j < T.scalars.length) →
      chainResolve (T.register specs r args).2.scalars js.reverse
          ((T.registerRun specs args).cols.getD i (.nat 0)) =
        args.getD (chainArgIdx specs i) (.nat 0)) ∧
    ((T.register specs r args).2.register specs r args).2.scalars =
      (T.register specs r args).2.scalars ∧
    (∀ (i : Nat) (js : List Nat), specs[i]? = some (ParamSpec.chain js) →
      ((T.register specs r args).2.registerRun specs args).cols[i]? =
        (T.registerRun specs args).cols[i]?) ∧
    (r < T.relations.length →
      ((T.register specs r args).2.register specs r args).2.relations.getD r [] =
        T.relations.getD r [] ++ [(T.registerRun specs args).cols] ++
          [((T.register specs r args).2.registerRun specs args).cols]) := by
  have happend : ∀ hr : r < T.relations.length,
      (T.register specs r args).2.relations.getD r [] =
        T.relations.getD r [] ++ [(T.registerRun specs args).cols] := by
    intro hr
    exact getD_set_self T.relations r _ [] hr
  refine ⟨?_, ?_, processParams_cols_length specs args T.counters T.scalars,
    processParams_autos specs args T.counters T.scalars, ?_, ?_, ?_, ?_, ?_⟩
  · intro hr
    refine ⟨happend hr, ?_⟩
    rw [happend hr]
    simp
  · intro r2 hr2
    exact getD_set_ne T.relations r2 r _ [] (fun he => hr2 he.symm)
  · intro k hk
    exact processParams_ctrs specs args T.counters T.scalars k hk
  · intro i js hi hrange
    exact processParams_chain_resolve specs args T.counters T.scalars i js hi hrange
  · exact (processParams_idem specs args T.counters
      (T.register specs r args).2.counters T.scalars).1
  · intro i js hi
    exact (processParams_idem specs args T.counters
      (T.register specs r args).2.counters T.scalars).2 i js hi
  · intro hr
    have h2 : ((T.register specs r args).2.register specs r args).2.relations.getD r [] =
        (T.register specs r args).2.relations.getD r [] ++
          [((T.register specs r args).2.registerRun specs args).cols] := by
      apply getD_set_self
      simp only [Tables.register]
      rw [List.length_set]
      exact hr
    rw [h2, happend hr]

theorem c5_registration_witness :
    (0 : Nat) < (⟨[0], [⟨[]⟩], [], [[]]⟩ : Tables).relations.length ∧
    ((⟨[0], [⟨[]⟩], [], [[]]⟩ : Tables).register [.auto 0, .chain [0]] 0
        [.str "f"]).2.relations.getD 0 [] =
      (⟨[0], [⟨[]⟩], [], [[]]⟩ : Tables).relations.getD 0 [] ++
        [((⟨[0], [⟨[]⟩], [], [[]]⟩ : Tables).registerRun [.auto 0, .chain [0]]
          [.str "f"]).cols] :=
  ⟨by decide, ((c5_registration ⟨[0], [⟨[]⟩], [], [[]]⟩ [.auto 0, .chain [0]] 0
    [.str "f"]).1 (by decide)).1⟩

theorem fsRead_fsWrite_self (fs : FS) (k : FsKey) (e : Enc) (p : Payload) :
    fsRead (fsWrite fs k e p) k = some (e, p) := by
  simp [fsRead, fsWrite]

theorem fsRead_fsWrite_ne (fs : FS) (k k2 : FsKey) (e : Enc) (p : Payload)
    (h : k ≠ k2) : fsRead (fsWrite fs k e p) k2 = fsRead fs k2 := by
  simp [fsRead, fsWrite, h]

theorem fsRead_writeSeq_lt {α : Type} (mk : Nat → FsKey) (wrap : α → Payload)
    (k : FsKey) :
    ∀ (xs : List α) (n : Nat) (fs : FS), (∀ m, m < xs.length → k ≠ mk (n + m)) →
      fsRead (writeSeq mk wrap n xs fs) k = fsRead fs k := by
  intro xs
  induction xs with
  | nil => intro n fs _; rfl
  | cons x xs ih =>
    intro n fs hne
    show fsRead (writeSeq mk wrap (n + 1) xs (fsWrite fs (mk n) .bincode (wrap x))) k =
      fsRead fs k
    rw [ih (n + 1) _ (fun m hm => by
      have := hne (m + 1) (by simpa using Nat.succ_lt_succ hm)
      rw [show n + (m + 1) = n + 1 + m by omega] at this
      exact this)]
    exact fsRead_fsWrite_ne fs (mk n) k .bincode (wrap x)
      (fun he => hne 0 (by simp) (by rw [← he, Nat.add_zero]))

theorem fsRead_writeSeq_hit {α : Type} (mk : Nat → FsKey) (wrap : α → Payload)
    (hinj : ∀ a b, mk a = mk b → a = b) (d : α) :
    ∀ (xs : List α) (n m : Nat) (fs : FS), m < xs.length →
      fsRead (writeSeq mk wrap n xs fs) (mk (n + m)) =
        some (.bincode, wrap (xs.getD m d)) := by
  intro xs
  induction xs with
  | nil => intro n m fs hm; simp at hm
  | cons x xs ih =>
    intro n m fs hm
    cases m with
    | zero =>
      simp only [Nat.add_zero, List.getD_cons_zero, writeSeq]
      rw [fsRead_writeSeq_lt mk wrap (mk n) xs (n + 1)
        (fsWrite fs (mk n) .bincode (wrap x)) (fun m2 hm2 he => by
          have := hinj n (n + 1 + m2) he
          omega)]
      exact fsRead_fsWrite_self fs (mk n) .bincode (wrap x)
    | succ m =>
      simp only [List.getD_cons_succ, writeSeq]
      rw [show n + (m + 1) = n + 1 + m by omega]
      exact ih (n + 1) m _ (by simpa using Nat.lt_of_succ_lt_succ hm)

theorem readSeq_ok {α : Type} (mk : Nat → FsKey) (unwrap : Payload → Option α)
    (wrap : α → Payload) (fs : FS) (d : α)
    (hext : ∀ i, (mk i).extOf = "bincode")
    (hwu : ∀ a, unwrap (wrap a) = some a) :
    ∀ (xs : List α) (n : Nat),
      (∀ m, m < xs.length →
        fsRead fs (mk (n + m)) = some (.bincode, wrap (xs.getD m d))) →
      readSeq mk unwrap fs n xs.length = .ok xs := by
  intro xs
  induction xs with
  | nil => intro n _; rfl
  | cons x xs ih =>
    intro n h
    have h0 : fsRead fs (mk n) = some (.bincode, wrap x) := by
      have := h 0 (by simp)
      rw [Nat.add_zero] at this
      exact this
    have hload : storageLoad fs (mk n) = .ok (wrap x) := by
      rw [storageLoad, h0]
      rw [hext n]
      simp
    have hdef : readSeq mk unwrap fs n (xs.length + 1) =
        match storageLoad fs (mk n) with
        | .error e => .error e
        | .ok p =>
          match unwrap p with
          | none => .error (.badBincode (mk n))
          | some a =>
            match readSeq mk unwrap fs (n + 1) xs.length with
            | .error e => .error e
            | .ok rest => .ok (a :: rest) := rfl
    show readSeq mk unwrap fs n (xs.length + 1) = .ok (x :: xs)
    rw [hdef, hload]
    show (match unwrap (wrap x) with
      | none => Except.error (LoadErr.badBincode (mk n))
      | some a =>
        match readSeq mk unwrap fs (n + 1) xs.length with
        | .error e => .error e
        | .ok rest => Except.ok (a :: rest)) = Except.ok (x :: xs)
    rw [hwu x]
    show (match readSeq mk unwrap fs (n + 1) xs.length with
      | .error e => Except.error e
      | .ok rest => Except.ok (x :: rest)) = Except.ok (x :: xs)
    rw [ih (n + 1) (fun m hm => by
      have := h (m + 1) (by simpa using Nat.succ_lt_succ hm)
      rw [show n + (m + 1) = n + 1 + m by omega] at this
      exact this)]

theorem storeMultifile_reads (t : Tables) (root : String) (fs : FS) :
    (∀ m, m < t.relations.length →
      fsRead (t.storeMultifile root fs) (relKey root m) =
        some (.bincode, .rel (t.relations.getD m []))) ∧
    fsRead (t.storeMultifile root fs) (ctrKey root) =
      some (.bincode, .ctr t.counters) ∧
    (∀ m, m < t.scalars.length →
      fsRead (t.storeMultifile root fs) (itabSKey root m) =
        some (.bincode, .itabS (t.scalars.getD m ⟨[]⟩))) ∧
    (∀ m, m < t.tuples.length →
      fsRead (t.storeMultifile root fs) (itabTKey root m) =
        some (.bincode, .itabT (t.tuples.getD m ⟨[]⟩))) := by
  have hstore : t.storeMultifile root fs =
      writeSeq (itabTKey root) Payload.itabT 0 t.tuples
        (writeSeq (itabSKey root) Payload.itabS 0 t.scalars
          (fsWrite (writeSeq (relKey root) Payload.rel 0 t.relations fs)
            (ctrKey root) .bincode (.ctr t.counters))) := rfl
  refine ⟨?_, ?_, ?_, ?_⟩
  · intro m hm
    rw [hstore]
    rw [fsRead_writeSeq_lt (itabTKey root) Payload.itabT (relKey root m) t.tuples 0 _
      (fun m2 _ he => FsKey.noConfusion he)]
    rw [fsRead_writeSeq_lt (itabSKey root) Payload.itabS (relKey root m) t.scalars 0 _
      (fun m2 _ he => FsKey.noConfusion he)]
    rw [fsRead_fsWrite_ne _ (ctrKey root) (relKey root m) _ _
      (fun he => FsKey.noConfusion he)]
    have := fsRead_writeSeq_hit (relKey root) Payload.rel
      (fun a b h => (FsKey.rel.inj h).2.1) [] t.relations 0 m fs hm
    simpa using this
  · rw [hstore]
    rw [fsRead_writeSeq_lt (itabTKey root) Payload.itabT (ctrKey root) t.tuples 0 _
      (fun m2 _ he => FsKey.noConfusion he)]
    rw [fsRead_writeSeq_lt (itabSKey root) Payload.itabS (ctrKey root) t.scalars 0 _
      (fun m2 _ he => FsKey.noConfusion he)]
    exact fsRead_fsWrite_self _ (ctrKey root) .bincode (.ctr t.counters)
  · intro m hm
    rw [hstore]
    rw [fsRead_writeSeq_lt (itabTKey root) Payload.itabT (itabSKey root m) t.tuples 0 _
      (fun m2 _ he => FsKey.noConfusion he)]
    have := fsRead_writeSeq_hit (itabSKey root) Payload.itabS
      (fun a b h => (FsKey.itabS.inj h).2.1) ⟨[]⟩ t.scalars 0 m
      (fsWrite (writeSeq (relKey root) Payload.rel 0 t.relations fs)
        (ctrKey root) .bincode (.ctr t.counters)) hm
    simpa using this
  · intro m hm
    rw [hstore]
    have := fsRead_writeSeq_hit (itabTKey root) Payload.itabT
      (fun a b h => (FsKey.itabT.inj h).2.1) ⟨[]⟩ t.tuples 0 m
      (writeSeq (itabSKey root) Payload.itabS 0 t.scalars
        (fsWrite (writeSeq (relKey root) Payload.rel 0 t.relations fs)
          (ctrKey root) .bincode (.ctr t.counters))) hm
    simpa using this

/-- The multi-file layout round-trips: loading what `store_multifile` wrote
reassembles the same `Tables`. -/
theorem storeMultifile_loadMultifile (S : Schema) (t : Tables) (root : String)
    (fs : FS)
    (h1 : t.relations.length = S.relCols.length)
    (h2 : t.scalars.length = S.scalarRefs.length)
    (h3 : t.tuples.length = S.tupleRefs.length) :
    S.loadMultifile (t.storeMultifile root fs) root = .ok t := by
  obtain ⟨hr, hc, hs, ht⟩ := storeMultifile_reads t root fs
  have hrels : readSeq (relKey root) unwrapRel (t.storeMultifile root fs) 0
      S.relCols.length = .ok t.relations := by
    rw [← h1]
    exact readSeq_ok (relKey root) unwrapRel Payload.rel _ []
      (fun i => rfl) (fun a => rfl) t.relations 0
      (fun m hm => by simpa using hr m hm)
  have hctr : storageLoad (t.storeMultifile root fs) (ctrKey root) =
      .ok (.ctr t.counters) := by
    rw [storageLoad, hc]
    simp [ctrKey, FsKey.extOf]
  have hscs : readSeq (itabSKey root) unwrapItabS (t.storeMultifile root fs) 0
      S.scalarRefs.length = .ok t.scalars := by
    rw [← h2]
    exact readSeq_ok (itabSKey root) unwrapItabS Payload.itabS _ ⟨[]⟩
      (fun i => rfl) (fun a => rfl) t.scalars 0
      (fun m hm => by simpa using hs m hm)
  have htps : readSeq (itabTKey root) unwrapItabT (t.storeMultifile root fs) 0
      S.tupleRefs.length = .ok t.tuples := by
    rw [← h3]
    exact readSeq_ok (itabTKey root) unwrapItabT Payload.itabT _ ⟨[]⟩
      (fun i => rfl) (fun a => rfl) t.tuples 0
      (fun m hm => by simpa using ht m hm)
  rw [Schema.loadMultifile, hrels, hctr, hscs, htps]

/-- `storage::save` followed by `storage::load` on the same path is the
identity for both supported extensions. -/
theorem storage_save_load (fs : FS) (k : FsKey) (p : Payload)
    (h : k.extOf = "bincode" ∨ k.extOf = "json") :
    ∃ fs2, storageSave fs k p = some fs2 ∧ storageLoad fs2 k = .ok p := by
  cases h with
  | inl hb =>
    refine ⟨fsWrite fs k .bincode p, ?_, ?_⟩
    · rw [storageSave, hb]
      simp
    · rw [storageLoad, fsRead_fsWrite_self, hb]
      simp
  | inr hj =>
    refine ⟨fsWrite fs k .json p, ?_, ?_⟩
    · rw [storageSave, hj]
      simp
    · rw [storageLoad, fsRead_fsWrite_self, hj]
      simp

/-- C6 counterexample: the multi-file layout exists only in the binary
encoding.  Every file `store_multifile` writes carries the `.bincode`
extension and encoding (here checked on a one-relation store), and
`load_multifile` reads only the `.bincode` paths: a corpus persisted in the
textual encoding under `relations/<name>.json` is unreadable — the loader
fails with an open error on the missing `.bincode` file.  Hence "loading what
save produced returns the original Tables for both layouts and both
file-extension-selected encodings" is false for the multi-file × json
combination: that combination cannot be produced or read at all. -/
theorem c6_multifile_json_cex :
    Schema.loadMultifile ⟨[], [], [], [[]]⟩
        [(FsKey.rel "db" 0 "json", (Enc.json, Payload.rel []))] "db" =
      .error (.openErr (.rel "db" 0 "bincode")) ∧
    (Tables.storeMultifile ⟨[], [], [], [[]]⟩ "db" []).all
      (fun e => e.1.extOf == "bincode") = true := by
  constructor
  · rfl
  · rfl

/-- C6 (amended): persistence round-trips in every combination the code can
produce: the single-file layout in both file-extension-selected encodings
(`save_json`/`save_bincode` then `Tables::load`), the multi-file layout in its
fixed binary encoding (`store_multifile` then `load_multifile`), and the
underlying `storage::save`/`storage::load` pair for both extensions. -/
theorem c6_persistence_round_trip (S : Schema) (t : Tables) (path root : String)
    (fs : FS)
    (h1 : t.relations.length = S.relCols.length)
    (h2 : t.scalars.length = S.scalarRefs.length)
    (h3 : t.tuples.length = S.tupleRefs.length) :
    Tables.loadSingle (t.saveJson path fs) (.single path "json") = .ok t ∧
    Tables.loadSingle (t.saveBincode path fs) (.single path "bincode") = .ok t ∧
    S.loadMultifile (t.storeMultifile root fs) root = .ok t ∧
    (∀ p2 k, FsKey.extOf k = "bincode" ∨ FsKey.extOf k = "json" →
      ∃ fs2, storageSave fs k p2 = some fs2 ∧ storageLoad fs2 k = .ok p2) := by
  refine ⟨?_, ?_, storeMultifile_loadMultifile S t root fs h1 h2 h3,
    fun p2 k h => storage_save_load fs k p2 h⟩
  · rw [Tables.saveJson, storageSave]
    simp only [FsKey.extOf]
    simp
    rw [Tables.loadSingle, storageLoad, fsRead_fsWrite_self]
    simp [FsKey.extOf]
  · rw [Tables.saveBincode, storageSave]
    simp only [FsKey.extOf]
    simp
    rw [Tables.loadSingle, storageLoad, fsRead_fsWrite_self]
    simp [FsKey.extOf]

theorem c6_persistence_round_trip_witness :
    (⟨[1], [⟨[.str "x"]⟩], [⟨[]⟩], [[[.nat 0]]]⟩ : Tables).relations.length =
      (⟨[1], [none], [[none]], [[.inc 0]]⟩ : Schema).relCols.length ∧
    Schema.loadMultifile ⟨[1], [none], [[none]], [[.inc 0]]⟩
        (Tables.storeMultifile ⟨[1], [⟨[.str "x"]⟩], [⟨[]⟩], [[[.nat 0]]]⟩ "db" [])
        "db" =
      .ok ⟨[1], [⟨[.str "x"]⟩], [⟨[]⟩], [[[.nat 0]]]⟩ :=
  ⟨by decide,
    (c6_persistence_round_trip ⟨[1], [none], [[none]], [[.inc 0]]⟩
      ⟨[1], [⟨[.str "x"]⟩], [⟨[]⟩], [[[.nat 0]]]⟩ "corpus" "db" []
      (by decide) (by decide) (by decide)).2.2.1⟩

end RustCallgraphs
